import Mathlib

/-!
Verification development for the tssc-cli dependency topology resolver and
its surrounding integration and MCP tooling code.

The repository sources under verification are:
- pkg/mcptools/deploytools.go (the MCP deploy/status front end),
- pkg/integration/gitlab.go (the GitLab integration secret flow),
- pkg/integration/imageregistry.go.

The resolver itself (TopologyBuilder, expression evaluator, Collection
loader) is described by the specification but its source is not part of the
provided tree; the definitions below that embed it are modelled from the
specification text and are marked as such in their doc comments.
-/

/- ## Boolean requirement expressions (spec section 4.2) -/

/-- Modelled from the spec: the Expression Evaluator source is not in the
provided tree. A requirement expression is a small tagged-variant syntax
tree: constant-true, identifier, and, or, not (spec section 9). -/
inductive BExpr where
  | tt : BExpr
  | var (name : String) : BExpr
  | and (a b : BExpr) : BExpr
  | or (a b : BExpr) : BExpr
  | not (a : BExpr) : BExpr
deriving DecidableEq, Repr

/-- Modelled from the spec: evaluation of a requirement expression against
the set of configured integration identifiers; pure recursive
interpretation, total by construction. -/
def BExpr.eval (e : BExpr) (configured : List String) : Bool :=
  match e with
  | .tt => true
  | .var n => configured.contains n
  | .and a b => a.eval configured && b.eval configured
  | .or a b => a.eval configured || b.eval configured
  | .not a => !(a.eval configured)

/-- Identifiers referenced by a requirement expression. -/
def BExpr.idents (e : BExpr) : List String :=
  match e with
  | .tt => []
  | .var n => [n]
  | .and a b => a.idents ++ b.idents
  | .or a b => a.idents ++ b.idents
  | .not a => a.idents

/-- Tokens of the requirement expression grammar. -/
inductive Token where
  | ident (s : String) : Token
  | tand : Token
  | tor : Token
  | tnot : Token
  | lparen : Token
  | rparen : Token
deriving DecidableEq, Repr

/-- Characters allowed inside an identifier. -/
def isIdentChar (ch : Char) : Bool :=
  ch.isAlphanum || ch = '-' || ch = '_' || ch = '.'

/-- Modelled from the spec: tokenizer for the expression grammar
(identifiers, double ampersand, double pipe, bang, parentheses); fuelled
recursion, fuel bounded by the character count. -/
def tokenize (fuel : Nat) (cs : List Char) : Option (List Token) :=
  match fuel with
  | 0 => none
  | fuel + 1 =>
    match cs with
    | [] => some []
    | ch :: rest =>
      if ch = ' ' || ch = '\t' || ch = '\n' then tokenize fuel rest
      else if ch = '(' then (tokenize fuel rest).map (Token.lparen :: ·)
      else if ch = ')' then (tokenize fuel rest).map (Token.rparen :: ·)
      else if ch = '!' then (tokenize fuel rest).map (Token.tnot :: ·)
      else if ch = '&' then
        match rest with
        | '&' :: r2 => (tokenize fuel r2).map (Token.tand :: ·)
        | _ => none
      else if ch = '|' then
        match rest with
        | '|' :: r2 => (tokenize fuel r2).map (Token.tor :: ·)
        | _ => none
      else if isIdentChar ch then
        let name := String.mk ((ch :: rest).takeWhile isIdentChar)
        (tokenize fuel ((ch :: rest).dropWhile isIdentChar)).map
          (Token.ident name :: ·)
      else none

mutual

/-- Modelled from the spec: recursive-descent parsing of the OR level
(lowest precedence); fuelled recursion. -/
def parseOr (fuel : Nat) (ts : List Token) : Option (BExpr × List Token) :=
  match fuel with
  | 0 => none
  | fuel + 1 =>
    match parseAnd fuel ts with
    | none => none
    | some (a, ts1) => parseOrRest fuel a ts1

/-- Modelled from the spec: the iterated tail of the OR level. -/
def parseOrRest (fuel : Nat) (acc : BExpr) (ts : List Token) :
    Option (BExpr × List Token) :=
  match fuel with
  | 0 => none
  | fuel + 1 =>
    match ts with
    | Token.tor :: rest =>
      match parseAnd fuel rest with
      | none => none
      | some (b, ts2) => parseOrRest fuel (BExpr.or acc b) ts2
    | _ => some (acc, ts)

/-- Modelled from the spec: the AND level (binds tighter than OR). -/
def parseAnd (fuel : Nat) (ts : List Token) : Option (BExpr × List Token) :=
  match fuel with
  | 0 => none
  | fuel + 1 =>
    match parseUnary fuel ts with
    | none => none
    | some (a, ts1) => parseAndRest fuel a ts1

/-- Modelled from the spec: the iterated tail of the AND level. -/
def parseAndRest (fuel : Nat) (acc : BExpr) (ts : List Token) :
    Option (BExpr × List Token) :=
  match fuel with
  | 0 => none
  | fuel + 1 =>
    match ts with
    | Token.tand :: rest =>
      match parseUnary fuel rest with
      | none => none
      | some (b, ts2) => parseAndRest fuel (BExpr.and acc b) ts2
    | _ => some (acc, ts)

/-- Modelled from the spec: NOT binds tightest; atoms are identifiers and
parenthesised expressions. -/
def parseUnary (fuel : Nat) (ts : List Token) : Option (BExpr × List Token) :=
  match fuel with
  | 0 => none
  | fuel + 1 =>
    match ts with
    | Token.tnot :: rest =>
      match parseUnary fuel rest with
      | none => none
      | some (a, ts1) => some (BExpr.not a, ts1)
    | Token.ident s :: rest => some (BExpr.var s, rest)
    | Token.lparen :: rest =>
      match parseOr fuel rest with
      | none => none
      | some (a, ts1) =>
        match ts1 with
        | Token.rparen :: ts2 => some (a, ts2)
        | _ => none
    | _ => none

end

/-- Modelled from the spec: Parse of section 4.2. The empty expression
string parses to constant-true; otherwise the token stream must be consumed
entirely by the grammar. -/
def parseReq (s : String) : Option BExpr :=
  match tokenize (s.length + 1) s.toList with
  | none => none
  | some [] => some BExpr.tt
  | some ts =>
    match parseOr (2 * ts.length + 2) ts with
    | some (e, []) => some e
    | _ => none

/- ## Collection and dependency graph (spec sections 3 and 4.3) -/

/-- Modelled from the spec: a Component has a unique name, declared
dependency names, and a requirement expression string (empty means no
integration required). -/
structure Component where
  name : String
  deps : List String
  requiresExpr : String
deriving DecidableEq, Repr

/-- Modelled from the spec: a Collection maps component names to
Components; embedded as the underlying association list. -/
abbrev Collection := List Component

deriving instance DecidableEq for Except

/-- Look a component up by name. -/
def lookup (c : Collection) (n : String) : Option Component :=
  List.find? (fun comp => comp.name = n) c

/-- The component names of a collection, in declaration order. -/
def names (c : Collection) : List String :=
  List.map Component.name c

/-- Check that a list of strings has no duplicates. -/
def nodupBy : List String → Bool
  | [] => true
  | x :: xs => !(xs.contains x) && nodupBy xs

/-- Modelled from the spec: Collection Loader validation of section 4.1;
names are non-empty and unique. -/
def validCollection (c : Collection) : Bool :=
  List.all c (fun comp => !(comp.name = "")) && nodupBy (names c)

/-- Scan components for the first declared dependency name that does not
resolve against the collection, returning the offending component name and
dependency name. -/
def findUnresolvedAux (c : Collection) : List Component → Option (String × String)
  | [] => none
  | comp :: rest =>
    match List.find? (fun d => !(lookup c d).isSome) comp.deps with
    | some d => some (comp.name, d)
    | none => findUnresolvedAux c rest

/-- Modelled from the spec: step 2 of the Build algorithm; the first
unresolved dependency name aborts resolution. -/
def findUnresolved (c : Collection) : Option (String × String) :=
  findUnresolvedAux c c

/-- Dependency-graph edge: a depends on b (edge a to b, b installs first). -/
def edgeB (c : Collection) (a b : String) : Bool :=
  match lookup c a with
  | some comp => comp.deps.contains b
  | none => false

/-- A cycle path: at least two entries, consecutive entries are edges, and
the path returns to its starting component. -/
def IsCyclePath (c : Collection) (p : List String) : Prop :=
  2 ≤ p.length ∧ p.head? = p.getLast? ∧ List.Chain' (fun a b => edgeB c a b = true) p

instance (c : Collection) (p : List String) : Decidable (IsCyclePath c p) :=
  inferInstanceAs (Decidable (2 ≤ p.length ∧ p.head? = p.getLast? ∧
    List.Chain' (fun a b => edgeB c a b = true) p))

/-- The dependency graph of a collection contains a cycle. -/
def HasCycle (c : Collection) : Prop :=
  ∃ p, IsCyclePath c p

/-- The dependency graph of a collection is acyclic. -/
def Acyclic (c : Collection) : Prop :=
  ¬ HasCycle c

/-- The cycle reported for a back-edge to node n: the portion of the
in-progress path from the first occurrence of n, closed by n itself. -/
def extractCycle (path : List String) (n : String) : List String :=
  path.dropWhile (fun x => !(x = n)) ++ [n]

/-- Modelled from the spec: step 3 of the Build algorithm; depth-first
traversal with the three-state marker (unvisited, in-progress via the path
argument, done via the done list). A back-edge to an in-progress node
aborts with the cycle path. Fuel bounds the recursion depth; Build supplies
fuel exceeding the component count, which the in-progress path can never
reach, and an exhausted traversal reports no cycle. -/
def dfsVisit (c : Collection) (fuel : Nat) (path done : List String)
    (n : String) : Except (List String) (List String) :=
  match fuel with
  | 0 => .ok done
  | fuel + 1 =>
    if done.contains n then .ok done
    else if path.contains n then .error (extractCycle path n)
    else
      match lookup c n with
      | none => .ok done
      | some comp =>
        match comp.deps.foldl
            (fun acc d =>
              match acc with
              | .error p => .error p
              | .ok done1 => dfsVisit c fuel (path ++ [n]) done1 d)
            (Except.ok done : Except (List String) (List String)) with
        | .error p => .error p
        | .ok done1 => .ok (done1 ++ [n])

/-- Depth-first traversal over a list of nodes, threading the done set. -/
def dfsMany (c : Collection) (fuel : Nat) (path done : List String)
    (ds : List String) : Except (List String) (List String) :=
  ds.foldl
    (fun acc d =>
      match acc with
      | .error p => .error p
      | .ok done1 => dfsVisit c fuel path done1 d)
    (Except.ok done : Except (List String) (List String))

/-- Modelled from the spec: cycle detection over every component of the
collection. -/
def dfsAll (c : Collection) : Except (List String) Unit :=
  match dfsMany c (List.length c + 1) [] [] (names c) with
  | .error p => .error p
  | .ok _ => .ok ()

/- ## Deterministic topological ordering (spec step 4) -/

/-- A component is ready when all its declared dependencies are already
placed in the install order. -/
def ready (placed : List String) (comp : Component) : Bool :=
  comp.deps.all (fun d => placed.contains d)

/-- Computable lexicographic comparison of character lists by code point;
kernel-reducible counterpart of the list order. -/
def charListLt : List Char → List Char → Bool
  | [], [] => false
  | [], _ :: _ => true
  | _ :: _, [] => false
  | x :: xs, y :: ys =>
    if x.toNat < y.toNat then true
    else if y.toNat < x.toNat then false
    else charListLt xs ys

/-- Computable strict order on strings, equivalent to the standard one. -/
def strLt (a b : String) : Bool :=
  charListLt a.data b.data

/-- Computable reflexive order on strings. -/
def strLe (a b : String) : Bool :=
  !(strLt b a)

/-- The component with the smallest name, used for the deterministic
tie-break of step 4. -/
def minByName : List Component → Option Component
  | [] => none
  | x :: xs =>
    some (xs.foldl (fun acc y => if strLt y.name acc.name then y else acc) x)

/-- Modelled from the spec: step 4; repeatedly emit the name-smallest
component whose dependencies are all placed. On a stuck state, where
components remain but none is ready, return the placed and remaining lists
so a cycle can be reported. Fuel bounds the iteration count; Build supplies
fuel at least the component count, so exhaustion is unreachable. -/
def kahnAux (c : Collection) (fuel : Nat) (placed : List String)
    (remaining : List Component) :
    Except (List String × List Component) (List String) :=
  if remaining = [] then .ok placed
  else
    match fuel with
    | 0 => .error (placed, remaining)
    | fuel + 1 =>
      match minByName (remaining.filter (ready placed)) with
      | some comp => kahnAux c fuel (placed ++ [comp.name]) (remaining.erase comp)
      | none => .error (placed, remaining)

/-- The head name of a non-empty component list. -/
def headName : List Component → String
  | [] => ""
  | comp :: _ => comp.name

/-- The first still-unplaced dependency of a node, used to walk from a
stuck state into a cycle. -/
def stepDep (c : Collection) (placed : List String) (n : String) : Option String :=
  match lookup c n with
  | none => none
  | some comp => comp.deps.find? (fun d => !(placed.contains d))

/-- Walk unplaced dependencies from a stuck state; since every remaining
node keeps an unplaced dependency, the walk must revisit a node and close a
cycle path. -/
def walkCycle (c : Collection) (placed : List String) (fuel : Nat)
    (path : List String) (current : String) : List String :=
  if path.contains current then extractCycle path current
  else
    match fuel with
    | 0 => []
    | fuel + 1 =>
      match stepDep c placed current with
      | none => []
      | some d => walkCycle c placed fuel (path ++ [current]) d

/- ## Requirement evaluation and the Build pipeline (spec steps 5 to 8) -/

/-- Modelled from the spec: the resolver error taxonomy of section 7, as a
closed enumeration with structured payloads. -/
inductive BuildError where
  | invalidCollection : BuildError
  | dependencyNotFound (component dep : String) : BuildError
  | circularDependency (path : List String) : BuildError
  | invalidExpression (component expr : String) : BuildError
  | unknownIntegration (name : String) : BuildError
  | missingIntegrations (integrations : List String) : BuildError
  | configuredIntegration (identity : String) : BuildError
deriving DecidableEq, Repr

/-- Modelled from the spec: step 5 for one component; parse the requirement
expression, reject identifiers outside the recognized universe, then
evaluate against the configured set. Returns the satisfaction flag and the
unconfigured identifiers accumulated when the requirement is unmet. -/
def evalComp (known configured : List String) (comp : Component) :
    Except BuildError (Bool × List String) :=
  match parseReq comp.requiresExpr with
  | none => .error (.invalidExpression comp.name comp.requiresExpr)
  | some e =>
    match e.idents.find? (fun i => !(known.contains i)) with
    | some i => .error (.unknownIntegration i)
    | none =>
      let b := e.eval configured
      .ok (b, if b then [] else e.idents.filter (fun i => !(configured.contains i)))

/-- Modelled from the spec: steps 5 and 6 over the install order; a false
evaluation does not abort, its unconfigured identifiers accumulate in the
missing set. Returns the per-component satisfaction flags and the
accumulated missing names. -/
def evalPhase (c : Collection) (known configured : List String) :
    List String → Except BuildError (List (String × Bool) × List String)
  | [] => .ok ([], [])
  | n :: rest =>
    match lookup c n with
    | none => evalPhase c known configured rest
    | some comp =>
      match evalComp known configured comp with
      | .error e => .error e
      | .ok (b, miss) =>
        match evalPhase c known configured rest with
        | .error e => .error e
        | .ok (flags, missRest) => .ok ((n, b) :: flags, miss ++ missRest)

/-- Insert a string into a sorted list, keeping it sorted ascending. -/
def orderedInsert (a : String) : List String → List String
  | [] => [a]
  | b :: l => if strLe a b then a :: b :: l else b :: orderedInsert a l

/-- Insertion sort over strings, ascending. -/
def insertionSortStr : List String → List String
  | [] => []
  | a :: l => orderedInsert a (insertionSortStr l)

/-- De-duplicate and sort ascending, for the missing-integrations payload. -/
def sortDedup (l : List String) : List String :=
  insertionSortStr l.dedup

/-- Modelled from the spec: TopologyBuilder.Build of section 4.3. The
collection is validated, dependencies resolved, cycles detected by
depth-first traversal, the acyclic graph ordered deterministically, and
requirements evaluated with missing integrations aggregated. The recognized
integration universe and the configured set come from the Integration State
Source. -/
def Build (c : Collection) (known configured : List String) :
    Except BuildError (List (String × Bool)) :=
  if validCollection c then
    match findUnresolved c with
    | some pair => .error (.dependencyNotFound pair.1 pair.2)
    | none =>
      match dfsAll c with
      | .error p => .error (.circularDependency p)
      | .ok _ =>
        match kahnAux c (List.length c) [] c with
        | .error st =>
          .error (.circularDependency
            (walkCycle c st.1 (List.length c + 1) [] (headName st.2)))
        | .ok order =>
          match evalPhase c known configured order with
          | .error e => .error e
          | .ok (flags, miss) =>
            if miss = [] then .ok flags
            else .error (.missingIntegrations (sortDedup miss))
  else .error .invalidCollection

/-- Whether a Build outcome is the circular-dependency error. -/
def isCircularErr : Except BuildError (List (String × Bool)) → Bool
  | .error (.circularDependency _) => true
  | _ => false

/- ## Cluster configuration and the GitLab integration
(pkg/integration/gitlab.go) -/

/-- The cluster configuration; the handlers only consume the installer
namespace (cfg.Installer.Namespace in the source). -/
structure Config where
  installerNamespace : String
deriving DecidableEq, Repr

/-- A namespaced Kubernetes object identity (types.NamespacedName). -/
structure NamespacedName where
  Namespace : String
  Name : String
deriving DecidableEq, Repr

/-- The in-cluster secret store, embedded as an explicit state: a list of
secrets keyed by namespaced identity, each carrying its string data. -/
structure Cluster where
  secrets : List (NamespacedName × List (String × String))
deriving DecidableEq, Repr

/-- k8s.SecretExists, embedded on the explicit cluster state. -/
def SecretExists (cl : Cluster) (r : NamespacedName) : Bool :=
  cl.secrets.any (fun s => s.1 = r)

/-- k8s.DeleteSecret, embedded on the explicit cluster state. -/
def DeleteSecret (cl : Cluster) (r : NamespacedName) : Cluster :=
  ⟨cl.secrets.filter (fun s => !(s.1 = r))⟩

/-- Secret creation through the core client, embedded on the explicit
cluster state. -/
def CreateSecret (cl : Cluster) (r : NamespacedName)
    (data : List (String × String)) : Cluster :=
  ⟨cl.secrets ++ [(r, data)]⟩

/-- Look up the data of a secret in the cluster state. -/
def lookupSecret (cl : Cluster) (r : NamespacedName) :
    Option (List (String × String)) :=
  (cl.secrets.find? (fun s => s.1 = r)).map Prod.snd

/-- The default host for public GitLab. -/
def defaultPublicGitLabHost : String := "gitlab.com"

/-- The TSSC GitLab integration flags and credentials. -/
structure GitLabIntegration where
  force : Bool
  insecure : Bool
  host : String
  clientId : String
  clientSecret : String
  token : String
  group : String
deriving DecidableEq, Repr

/-- NewGitLabIntegration: defaults before flag parsing. -/
def NewGitLabIntegration : GitLabIntegration :=
  ⟨false, false, defaultPublicGitLabHost, "", "", "", ""⟩

/-- GitLabIntegration.Validate: checks that the client id and client secret
are either both present or both absent. -/
def GitLabIntegration.Validate (g : GitLabIntegration) : Except String Unit :=
  if g.clientId ≠ "" ∧ g.clientSecret = "" then
    .error "app-secret is required when id is specified"
  else if g.clientId = "" ∧ g.clientSecret ≠ "" then
    .error "app-id is required when app-secret is specified"
  else .ok ()

/-- GitLabIntegration.secretName: the namespaced identity of the
integration secret. -/
def GitLabIntegration.secretName (_g : GitLabIntegration) (cfg : Config) :
    NamespacedName :=
  ⟨cfg.installerNamespace, "tssc-gitlab-integration"⟩

/-- Failures of the GitLab integration secret flow. ErrSecretAlreadyExists
is the sentinel wrapped by prepareSecret; the user lookup failure stands
for an error from the GitLab API call in getCurrentGitLabUser. -/
inductive GitLabError where
  | secretAlreadyExists (identity : NamespacedName) : GitLabError
  | userLookupFailed (message : String) : GitLabError
deriving DecidableEq, Repr

/-- GitLabIntegration.prepareSecret: if the integration secret already
exists it is an error unless the force flag is enabled, in which case the
existing secret is deleted. Returns the resulting cluster state. -/
def GitLabIntegration.prepareSecret (g : GitLabIntegration) (cfg : Config)
    (cl : Cluster) : Except GitLabError Cluster :=
  if !(SecretExists cl (g.secretName cfg)) then .ok cl
  else if !g.force then .error (.secretAlreadyExists (g.secretName cfg))
  else .ok (DeleteSecret cl (g.secretName cfg))

/-- The data map stored in the GitLab integration secret. -/
def GitLabIntegration.storeData (g : GitLabIntegration) (username : String) :
    List (String × String) :=
  [("clientId", g.clientId), ("clientSecret", g.clientSecret),
   ("host", g.host), ("token", g.token), ("group", g.group),
   ("username", username)]

/-- GitLabIntegration.store: resolve the current GitLab user (an external
call, supplied as its result), then create the integration secret. Returns
the flow result paired with the resulting cluster state. -/
def GitLabIntegration.store (g : GitLabIntegration) (cfg : Config)
    (userRes : Except String String) (cl : Cluster) :
    Except GitLabError Unit × Cluster :=
  match userRes with
  | .error e => (.error (.userLookupFailed e), cl)
  | .ok username =>
    (.ok (), CreateSecret cl (g.secretName cfg) (g.storeData username))

/-- GitLabIntegration.Create: prepare the secret, then store it. The
cluster state is threaded explicitly so that failures leave it visible. -/
def GitLabIntegration.Create (g : GitLabIntegration) (cfg : Config)
    (userRes : Except String String) (cl : Cluster) :
    Except GitLabError Unit × Cluster :=
  match g.prepareSecret cfg cl with
  | .error e => (.error e, cl)
  | .ok cl1 => g.store cfg userRes cl1

/- ## The MCP deploy status handler (pkg/mcptools/deploytools.go) -/

/-- Modelled from the spec: the Installer Job collaborator state machine
has the four states NotFound, Deploying, Failed and Done; the installer
package itself is not in the provided tree, so the state is embedded as
its string tag. -/
def Installer.NotFound : String := "NotFound"

/-- Modelled from the spec: the Deploying state tag. -/
def Installer.Deploying : String := "Deploying"

/-- Modelled from the spec: the Failed state tag. -/
def Installer.Failed : String := "Failed"

/-- Modelled from the spec: the Done state tag. -/
def Installer.Done : String := "Done"

/-- An MCP tool result: plain text (mcp.NewToolResultText) or an
error-flavoured result (mcp.NewToolResultError). -/
inductive McpResult where
  | text (message : String) : McpResult
  | errorResult (message : String) : McpResult
deriving DecidableEq, Repr

/-- Whether a tool result is the error-flavoured kind. -/
def McpResult.isError : McpResult → Bool
  | .text _ => false
  | .errorResult _ => true

/-- Wrap a string in double quotes, as the %q format verb does. -/
def quoteStr (s : String) : String :=
  "\"" ++ s ++ "\""

/-- A plain rendering of a build error, standing for err.Error(). -/
def renderBuildError : BuildError → String
  | .invalidCollection => "invalid collection"
  | .dependencyNotFound comp dep => "dependency not found: " ++ comp ++ ": " ++ dep
  | .circularDependency p => "circular dependency: " ++ String.intercalate ", " p
  | .invalidExpression comp e => "invalid expression: " ++ comp ++ ": " ++ e
  | .unknownIntegration n => "unknown integration: " ++ n
  | .missingIntegrations l => "missing integrations: " ++ String.intercalate ", " l
  | .configuredIntegration idn => "configured integration: " ++ idn

/-- The guidance returned by statusHandler when GetConfig fails: the
cluster is not configured yet and the configuration tool
tssc_config_create is the first step. -/
def clusterNotConfiguredMsg (e : String) : String :=
  "The cluster is not configured yet, use the tool tssc_config_create to " ++
  "configure it. That is the first step to deploy TSSC components. " ++
  "Inspecting the configuration in the cluster returned the following " ++
  "error: " ++ e

/-- The switch in statusHandler over the error returned by
TopologyBuilder.Build; every taxonomy error maps to a plain-text guidance
result. The source switch carries a default branch returning an
error-flavoured result, unreachable for the closed taxonomy embedded
here. -/
def statusBuildErrorResult (e : BuildError) : McpResult :=
  match e with
  | .circularDependency _ | .dependencyNotFound _ _ | .invalidCollection =>
    .text ("ATTENTION: The installer set of dependencies, Helm charts, " ++
      "are not properly resolved. Please check the dependencies given to " ++
      "the installer. " ++ renderBuildError e)
  | .invalidExpression _ _ | .unknownIntegration _ =>
    .text ("ATTENTION: The installer set of dependencies, Helm charts, " ++
      "are referencing invalid required integrations expressions and/or " ++
      "using invalid integration names. " ++ renderBuildError e)
  | .configuredIntegration _ =>
    .text ("The integration is already configured in the cluster, " ++
      renderBuildError e)
  | .missingIntegrations _ =>
    .text ("ATTENTION: One or more required integrations are missing. " ++
      "Use the integration list tool to describe the existing " ++
      "integrations. " ++ renderBuildError e)

/-- DeployTools.statusHandler: inspect the cluster configuration, then the
topology, then the deployment job state. The collaborators are supplied as
call results: the configuration lookup, the topology builder keyed by the
configuration, the job state lookup, and the job-log command rendering.
The outer Except mirrors the Go error return value, while McpResult
mirrors the returned tool result. -/
def statusHandler (cfgRes : Except String Config)
    (topology : Config → Except BuildError (List (String × Bool)))
    (jobState : Except String String)
    (logsCmd : String → String) : Except String McpResult :=
  match cfgRes with
  | .error err => .ok (.text (clusterNotConfiguredMsg err))
  | .ok cfg =>
    match topology cfg with
    | .error e => .ok (statusBuildErrorResult e)
    | .ok _ =>
      match jobState with
      | .error e => .error e
      | .ok state =>
        if state = Installer.NotFound then
          .ok (.text ("The cluster is ready to deploy the TSSC " ++
            "components. Use the tool tssc_deploy to deploy the components."))
        else if state = Installer.Deploying then
          .ok (.text ("The cluster is deploying the TSSC components. " ++
            "Please wait for the deployment to complete. You can use the " ++
            "following command to follow the deployment job logs: " ++
            logsCmd cfg.installerNamespace))
        else if state = Installer.Failed then
          .ok (.errorResult ("The deployment job has failed. You can use " ++
            "the following command to view the related POD logs: " ++
            logsCmd cfg.installerNamespace))
        else if state = Installer.Done then
          .ok (.text ("The TSSC components have been deployed " ++
            "successfully. You can use the following command to inspect " ++
            "the installation logs: " ++ logsCmd cfg.installerNamespace))
        else .error ("unknown deployment state " ++ quoteStr state)

/- ## Theorems: the GitLab integration flow -/

/-- C10: GitLabIntegration.Validate fails exactly when one of the client
id and client secret is set and the other is not; both-empty and
both-non-empty pass, and the outcome depends on no other field. -/
theorem gitlab_validate_xor_clientId_clientSecret (g : GitLabIntegration) :
    (g.Validate = Except.ok () ↔ ((g.clientId = "") ↔ (g.clientSecret = ""))) ∧
    ((∃ e, g.Validate = Except.error e) ↔
      ¬ ((g.clientId = "") ↔ (g.clientSecret = ""))) ∧
    (∀ g' : GitLabIntegration, g'.clientId = g.clientId →
      g'.clientSecret = g.clientSecret → g'.Validate = g.Validate) := by
  refine ⟨?_, ?_, ?_⟩
  · unfold GitLabIntegration.Validate
    by_cases h1 : g.clientId = "" <;> by_cases h2 : g.clientSecret = "" <;>
      simp [h1, h2]
  · unfold GitLabIntegration.Validate
    by_cases h1 : g.clientId = "" <;> by_cases h2 : g.clientSecret = "" <;>
      simp [h1, h2]
  · intro g' h1 h2
    unfold GitLabIntegration.Validate
    rw [h1, h2]

/-- A concrete instance of C10: a client id without a client secret is
rejected, and the default (both empty) passes. -/
theorem gitlab_validate_xor_clientId_clientSecret_witness :
    ((⟨false, false, "gitlab.com", "id", "", "tok", "grp"⟩ :
        GitLabIntegration).Validate ≠ Except.ok ()) ∧
    NewGitLabIntegration.Validate = Except.ok () := by
  constructor
  · intro h
    have h2 := (gitlab_validate_xor_clientId_clientSecret
      ⟨false, false, "gitlab.com", "id", "", "tok", "grp"⟩).1.mp h
    simp at h2
  · exact (gitlab_validate_xor_clientId_clientSecret NewGitLabIntegration).1.mpr
      (by decide)

/-- C7: when the GitLab integration secret already exists, Create without
the force flag fails with the secret-already-exists error carrying the
namespaced identity, leaving the cluster state untouched; with the force
flag it deletes the existing secret and creates the new one. -/
theorem gitlab_create_existing_secret (g : GitLabIntegration) (cfg : Config)
    (userRes : Except String String) (cl : Cluster)
    (hex : SecretExists cl (g.secretName cfg) = true) :
    (g.force = false →
      g.Create cfg userRes cl =
        (Except.error (GitLabError.secretAlreadyExists (g.secretName cfg)), cl)) ∧
    (∀ username, g.force = true → userRes = Except.ok username →
      g.Create cfg userRes cl =
        (Except.ok (),
          CreateSecret (DeleteSecret cl (g.secretName cfg)) (g.secretName cfg)
            (g.storeData username))) := by
  constructor
  · intro hf
    unfold GitLabIntegration.Create GitLabIntegration.prepareSecret
    simp [hex, hf]
  · intro username hf hu
    unfold GitLabIntegration.Create GitLabIntegration.prepareSecret
      GitLabIntegration.store
    simp [hex, hf, hu]

/-- A concrete instance of C7: with the secret present in the cluster, the
default integration (force disabled) fails and leaves the state unchanged,
while the forced variant replaces the secret. -/
theorem gitlab_create_existing_secret_witness :
    (NewGitLabIntegration.Create ⟨"ns"⟩ (Except.ok "user")
        ⟨[(⟨"ns", "tssc-gitlab-integration"⟩, [("old", "1")])]⟩ =
      (Except.error (GitLabError.secretAlreadyExists
        ⟨"ns", "tssc-gitlab-integration"⟩),
        ⟨[(⟨"ns", "tssc-gitlab-integration"⟩, [("old", "1")])]⟩)) ∧
    (({ NewGitLabIntegration with force := true }).Create ⟨"ns"⟩
        (Except.ok "user")
        ⟨[(⟨"ns", "tssc-gitlab-integration"⟩, [("old", "1")])]⟩ =
      (Except.ok (),
        CreateSecret
          (DeleteSecret ⟨[(⟨"ns", "tssc-gitlab-integration"⟩, [("old", "1")])]⟩
            ⟨"ns", "tssc-gitlab-integration"⟩)
          ⟨"ns", "tssc-gitlab-integration"⟩
          (({ NewGitLabIntegration with force := true }).storeData "user"))) := by
  constructor
  · exact (gitlab_create_existing_secret NewGitLabIntegration ⟨"ns"⟩
      (Except.ok "user") _ (by decide)).1 rfl
  · exact (gitlab_create_existing_secret _ ⟨"ns"⟩ (Except.ok "user") _
      (by decide)).2 "user" rfl rfl

/- ## Theorems: the MCP status handler -/

/-- C8: when the cluster configuration lookup fails, statusHandler returns
a plain-text cluster-not-configured guidance (not an error), and the
result does not depend on the topology builder or on the job state: the
builder is never consulted. -/
theorem statusHandler_config_missing (e : String)
    (t1 t2 : Config → Except BuildError (List (String × Bool)))
    (j1 j2 : Except String String) (lc1 lc2 : String → String) :
    statusHandler (Except.error e) t1 j1 lc1 =
      Except.ok (McpResult.text (clusterNotConfiguredMsg e)) ∧
    (McpResult.text (clusterNotConfiguredMsg e)).isError = false ∧
    statusHandler (Except.error e) t1 j1 lc1 =
      statusHandler (Except.error e) t2 j2 lc2 :=
  ⟨rfl, rfl, rfl⟩

/-- C9: the installer job collaborator has the four distinct states
NotFound, Deploying, Failed and Done; once the topology resolves, the
status handler returns a tool result for each of them, error-flavoured
exactly for Failed, and any state outside the set yields an error naming
the unknown state, so that branch is unreachable while the collaborator
honours its contract. -/
theorem statusHandler_job_states (cfg : Config)
    (topology : Config → Except BuildError (List (String × Bool)))
    (flags : List (String × Bool)) (lc : String → String)
    (htop : topology cfg = Except.ok flags) :
    [Installer.NotFound, Installer.Deploying, Installer.Failed,
      Installer.Done].Nodup ∧
    (∀ s, s ∈ [Installer.NotFound, Installer.Deploying, Installer.Failed,
        Installer.Done] →
      ∃ r, statusHandler (Except.ok cfg) topology (Except.ok s) lc =
          Except.ok r ∧ (r.isError = true ↔ s = Installer.Failed)) ∧
    (∀ s, s ∉ [Installer.NotFound, Installer.Deploying, Installer.Failed,
        Installer.Done] →
      statusHandler (Except.ok cfg) topology (Except.ok s) lc =
        Except.error ("unknown deployment state " ++ quoteStr s)) := by
  refine ⟨by decide, ?_, ?_⟩
  · intro s hs
    simp only [List.mem_cons, List.mem_singleton, List.not_mem_nil, or_false]
      at hs
    rcases hs with h | h | h | h <;> subst h <;>
      simp [statusHandler, htop, Installer.NotFound, Installer.Deploying,
        Installer.Failed, Installer.Done, McpResult.isError]
  · intro s hs
    simp only [List.mem_cons, List.mem_singleton, List.not_mem_nil, or_false,
      not_or] at hs
    obtain ⟨h1, h2, h3, h4⟩ := hs
    simp [statusHandler, htop, h1, h2, h3, h4]

/-- A concrete instance of C9: with a resolving topology, the Failed state
gives an error-flavoured tool result and an out-of-contract state gives an
error naming it. -/
theorem statusHandler_job_states_witness :
    (∃ r, statusHandler (Except.ok ⟨"ns"⟩) (fun _ => Except.ok [])
        (Except.ok Installer.Failed) (fun n => n) = Except.ok r ∧
        (r.isError = true ↔ Installer.Failed = Installer.Failed)) ∧
    statusHandler (Except.ok ⟨"ns"⟩) (fun _ => Except.ok [])
        (Except.ok "Bogus") (fun n => n) =
      Except.error ("unknown deployment state " ++ quoteStr "Bogus") := by
  have h := statusHandler_job_states ⟨"ns"⟩ (fun _ => Except.ok []) []
    (fun n => n) rfl
  exact ⟨h.2.1 Installer.Failed (by decide), h.2.2 "Bogus" (by decide)⟩

/- ## Theorems: the error taxonomy of Build -/

/-- The evaluation phase only fails with invalid-expression or
unknown-integration errors. -/
theorem evalPhase_error_shape (c : Collection) (known configured : List String) :
    ∀ (order : List String) (e : BuildError),
      evalPhase c known configured order = Except.error e →
      (∃ comp expr, e = BuildError.invalidExpression comp expr) ∨
      (∃ n, e = BuildError.unknownIntegration n) := by
  intro order
  induction order with
  | nil => intro e h; simp [evalPhase] at h
  | cons n rest ih =>
    intro e h
    unfold evalPhase at h
    split at h
    · exact ih e h
    · rename_i comp hlk
      split at h
      · rename_i e1 hec
        cases h
        unfold evalComp at hec
        split at hec
        · cases hec; exact Or.inl ⟨comp.name, _, rfl⟩
        · rename_i ex hp
          split at hec
          · rename_i i hf
            cases hec; exact Or.inr ⟨i, rfl⟩
          · simp at hec
      · rename_i pr hec
        split at h
        · rename_i e1 hrest
          cases h; exact ih _ hrest
        · cases h

/-- C1: TopologyBuilder.Build never fails with the configured-integration
error: that kind belongs exclusively to the per-integration configuration
flow, even though the status handler front end carries a branch for it. -/
theorem build_never_configured_integration (c : Collection)
    (known configured : List String) (idn : String) :
    Build c known configured ≠
      Except.error (BuildError.configuredIntegration idn) := by
  intro h
  unfold Build at h
  split at h
  · split at h
    · cases h
    · split at h
      · cases h
      · split at h
        · cases h
        · split at h
          · rename_i e hep
            cases h
            rcases evalPhase_error_shape c known configured _ _ hep with
              ⟨comp, expr, he⟩ | ⟨n, he⟩ <;> cases he
          · split at h <;> cases h
  · cases h

/-- A concrete instance of C1: on the empty collection Build does not
report a configured integration. -/
theorem build_never_configured_integration_witness :
    Build [] [] [] ≠ Except.error (BuildError.configuredIntegration "gitlab") :=
  build_never_configured_integration [] [] [] "gitlab"

/- ## Theorems: the expression evaluator -/

/-- C6: the empty expression parses to constant-true, which evaluates true
against every configured set; evaluation is total, returning a boolean for
every requirement and set; and a requirement referencing an identifier
outside the recognized universe is rejected with the unknown-integration
error before evaluation. -/
theorem parse_empty_true_eval_total :
    parseReq "" = some BExpr.tt ∧
    (∀ configured, BExpr.eval BExpr.tt configured = true) ∧
    (∀ (e : BExpr) (configured : List String),
      e.eval configured = true ∨ e.eval configured = false) ∧
    (∀ (known configured : List String) (comp : Component) (e : BExpr)
        (i : String),
      parseReq comp.requiresExpr = some e → i ∈ e.idents →
      known.contains i = false →
      ∃ j, evalComp known configured comp =
          Except.error (BuildError.unknownIntegration j) ∧
        known.contains j = false) := by
  refine ⟨rfl, fun _ => rfl, fun e configured => ?_, ?_⟩
  · cases e.eval configured
    · right; rfl
    · left; rfl
  · intro known configured comp e i hp hi hk
    have hsome : (e.idents.find? (fun x => !(known.contains x))).isSome := by
      rw [List.find?_isSome]
      exact ⟨i, hi, by rw [Bool.not_eq_true']; exact hk⟩
    obtain ⟨j, hj⟩ := Option.isSome_iff_exists.mp hsome
    have hjp := List.find?_some hj
    refine ⟨j, ?_, by rw [← Bool.not_eq_true']; exact hjp⟩
    unfold evalComp
    rw [hp]
    simp only [hj]

/-- A concrete instance of C6: a requirement naming an unrecognized
integration is rejected with the unknown-integration error. -/
theorem parse_empty_true_eval_total_witness :
    ∃ j, evalComp [] ["gitlab"] ⟨"shipper", [], "gitlab"⟩ =
        Except.error (BuildError.unknownIntegration j) ∧
      List.contains [] j = false := by
  have h := parse_empty_true_eval_total.2.2.2 [] ["gitlab"]
    ⟨"shipper", [], "gitlab"⟩ (BExpr.var "gitlab") "gitlab" (by decide)
    (by decide) (by decide)
  exact h

/- ## Theorems: determinism of Build -/

/-- Membership-equal configured sets agree on contains. -/
theorem contains_congr {l1 l2 : List String} (h : ∀ x, x ∈ l1 ↔ x ∈ l2)
    (a : String) : l1.contains a = l2.contains a := by
  rw [Bool.eq_iff_iff, List.elem_iff, List.elem_iff]
  exact h a

/-- find? only depends on the pointwise behaviour of its predicate. -/
theorem find?_congrStr (l : List String) (p q : String → Bool)
    (h : ∀ a, p a = q a) : l.find? p = l.find? q := by
  induction l with
  | nil => rfl
  | cons a l ih =>
    rw [List.find?_cons, List.find?_cons, h a]
    cases q a
    · exact ih
    · rfl

/-- filter only depends on the pointwise behaviour of its predicate. -/
theorem filter_congrStr (l : List String) (p q : String → Bool)
    (h : ∀ a, p a = q a) : l.filter p = l.filter q := by
  induction l with
  | nil => rfl
  | cons a l ih =>
    rw [List.filter_cons, List.filter_cons, h a, ih]

/-- Evaluation of a requirement expression only depends on the membership
of the configured set. -/
theorem eval_congr (conf1 conf2 : List String)
    (h : ∀ x, x ∈ conf1 ↔ x ∈ conf2) (e : BExpr) :
    e.eval conf1 = e.eval conf2 := by
  induction e with
  | tt => rfl
  | var n => simpa [BExpr.eval] using contains_congr h n
  | and a b iha ihb => simp [BExpr.eval, iha, ihb]
  | or a b iha ihb => simp [BExpr.eval, iha, ihb]
  | not a iha => simp [BExpr.eval, iha]

/-- Per-component evaluation only depends on the membership of the known
and configured sets. -/
theorem evalComp_congr (known1 known2 conf1 conf2 : List String)
    (hk : ∀ x, x ∈ known1 ↔ x ∈ known2)
    (hc : ∀ x, x ∈ conf1 ↔ x ∈ conf2) (comp : Component) :
    evalComp known1 conf1 comp = evalComp known2 conf2 comp := by
  unfold evalComp
  cases hp : parseReq comp.requiresExpr with
  | none => rfl
  | some e =>
    simp only [hp]
    have hfind : List.find? (fun i => !(known1.contains i)) e.idents =
        List.find? (fun i => !(known2.contains i)) e.idents :=
      find?_congrStr _ _ _ (fun a => by rw [contains_congr hk a])
    rw [hfind]
    cases hf : List.find? (fun i => !(known2.contains i)) e.idents with
    | some i => simp only [hf]
    | none =>
      have hev : e.eval conf1 = e.eval conf2 := eval_congr _ _ hc e
      have hfil : List.filter (fun i => !(conf1.contains i)) e.idents =
          List.filter (fun i => !(conf2.contains i)) e.idents :=
        filter_congrStr _ _ _ (fun a => by rw [contains_congr hc a])
      simp only [hf, hev, hfil]

/-- The evaluation phase only depends on the membership of the known and
configured sets. -/
theorem evalPhase_congr (c : Collection) (known1 known2 conf1 conf2 : List String)
    (hk : ∀ x, x ∈ known1 ↔ x ∈ known2)
    (hc : ∀ x, x ∈ conf1 ↔ x ∈ conf2) (order : List String) :
    evalPhase c known1 conf1 order = evalPhase c known2 conf2 order := by
  induction order with
  | nil => rfl
  | cons n rest ih =>
    cases hlk : lookup c n with
    | none => simp only [evalPhase, hlk]; exact ih
    | some comp =>
      simp only [evalPhase, hlk,
        evalComp_congr known1 known2 conf1 conf2 hk hc comp, ih]

/-- C5: Build is deterministic; its result depends only on the collection
and on the membership of the recognized and configured integration sets,
so two calls with identical inputs return identical install orders,
satisfaction flags, and errors. -/
theorem build_deterministic (c : Collection)
    (known1 known2 conf1 conf2 : List String)
    (hk : ∀ x, x ∈ known1 ↔ x ∈ known2)
    (hc : ∀ x, x ∈ conf1 ↔ x ∈ conf2) :
    Build c known1 conf1 = Build c known2 conf2 := by
  unfold Build
  cases hv : validCollection c
  · simp [hv]
  · simp only [hv]
    cases hfu : findUnresolved c with
    | some pair => simp only [hfu]
    | none =>
      simp only [hfu]
      cases hdfs : dfsAll c with
      | error p => simp only [hdfs]
      | ok u =>
        simp only [hdfs]
        cases hk2 : kahnAux c (List.length c) [] c with
        | error st => simp only [hk2]
        | ok order =>
          simp only [hk2,
            evalPhase_congr c known1 known2 conf1 conf2 hk hc order]

/-- A concrete instance of C5: duplicated or reordered input sets with the
same membership give the identical result. -/
theorem build_deterministic_witness :
    Build [⟨"app", [], "github"⟩] ["github", "github"] ["github"] =
      Build [⟨"app", [], "github"⟩] ["github"] ["github", "github"] :=
  build_deterministic _ _ _ _ _ (fun x => by simp) (fun x => by simp)

/- ## Theorems: order bridge and cycle extraction -/

/-- nodupBy computes list nodup. -/
theorem nodupBy_iff (l : List String) : nodupBy l = true ↔ l.Nodup := by
  induction l with
  | nil => simp [nodupBy]
  | cons x xs ih =>
    simp [nodupBy, ih, List.elem_iff]

/-- The computable character-list comparison agrees with lexicographic
order. -/
theorem charListLt_iff_lex (xs ys : List Char) :
    charListLt xs ys = true ↔ List.Lex (· < ·) xs ys := by
  induction xs generalizing ys with
  | nil =>
    cases ys with
    | nil =>
      apply iff_of_false
      · simp [charListLt]
      · intro h; cases h
    | cons y ys => exact iff_of_true rfl List.Lex.nil
  | cons x xs ih =>
    cases ys with
    | nil =>
      apply iff_of_false
      · simp [charListLt]
      · intro h; cases h
    | cons y ys =>
      by_cases h1 : x.toNat < y.toNat
      · apply iff_of_true
        · simp [charListLt, h1]
        · exact List.Lex.rel h1
      · by_cases h2 : y.toNat < x.toNat
        · apply iff_of_false
          · simp [charListLt, h1, h2]
          · intro h
            cases h with
            | rel h3 => exact h1 h3
            | cons h3 => exact absurd h2 (Nat.lt_irrefl _)
        · have hn : x.toNat = y.toNat := by omega
          have hxy : x = y := Char.ext (UInt32.ext hn)
          subst hxy
          have : charListLt (x :: xs) (x :: ys) = charListLt xs ys := by
            simp [charListLt, h1]
          rw [this, ih ys]
          exact List.Lex.cons_iff.symm

/-- The computable string comparison agrees with the strict order. -/
theorem strLt_iff (a b : String) : strLt a b = true ↔ a < b := by
  rw [String.lt_iff_toList_lt]
  exact charListLt_iff_lex a.data b.data

/-- The computable string comparison agrees with the reflexive order. -/
theorem strLe_iff (a b : String) : strLe a b = true ↔ a ≤ b := by
  unfold strLe
  rw [Bool.not_eq_true', ← Bool.not_eq_true, strLt_iff, not_lt]

/- ## Theorems: cycle-path extraction -/

/-- Dropping up to the first occurrence of a member yields a suffix
starting with it. -/
theorem dropWhile_ne_suffix (n : String) :
    ∀ (l : List String), n ∈ l →
      ∃ t, l.dropWhile (fun x => !(x = n)) = n :: t ∧ (n :: t) <:+ l := by
  intro l
  induction l with
  | nil => intro h; cases h
  | cons x xs ih =>
    intro h
    by_cases hx : x = n
    · subst hx
      refine ⟨xs, ?_, List.suffix_refl _⟩
      rw [List.dropWhile_cons]
      simp
    · have hm : n ∈ xs := by
        cases h with
        | head => exact absurd rfl hx
        | tail _ h2 => exact h2
      obtain ⟨t, ht, hsuf⟩ := ih hm
      refine ⟨t, ?_, hsuf.trans (List.suffix_cons x xs)⟩
      rw [List.dropWhile_cons]
      simp [hx, ht]

/-- A back-edge to an in-progress node closes a genuine cycle: the
extracted path is a cycle of the dependency graph. -/
theorem extractCycle_sound (c : Collection) (path : List String) (n : String)
    (hmem : n ∈ path)
    (hchain : List.Chain' (fun a b => edgeB c a b = true) (path ++ [n])) :
    IsCyclePath c (extractCycle path n) := by
  obtain ⟨t, ht, hsuf⟩ := dropWhile_ne_suffix n path hmem
  unfold extractCycle
  rw [ht]
  obtain ⟨pre, hpre⟩ := hsuf
  refine ⟨by simp, ?_, ?_⟩
  · rw [List.getLast?_concat]
    rfl
  · have hsuf2 : (n :: t) ++ [n] <:+ path ++ [n] :=
      ⟨pre, by rw [← hpre]; simp⟩
    obtain ⟨pre2, hpre2⟩ := hsuf2
    rw [← hpre2] at hchain
    exact List.Chain'.right_of_append hchain

/- ## Theorems: soundness of the depth-first cycle detection -/

/-- Folding the traversal step over an error keeps the error. -/
theorem dfs_fold_error (c : Collection) (fuel : Nat) (path : List String)
    (p : List String) : ∀ ds : List String,
    ds.foldl
      (fun acc d =>
        match acc with
        | .error q => .error q
        | .ok done1 => dfsVisit c fuel path done1 d)
      (Except.error p : Except (List String) (List String)) = Except.error p := by
  intro ds
  induction ds with
  | nil => rfl
  | cons d rest ih => rw [List.foldl_cons]; exact ih

/-- One step of the traversal over a node list. -/
theorem dfsMany_cons (c : Collection) (fuel : Nat) (path done : List String)
    (d : String) (rest : List String) :
    dfsMany c fuel path done (d :: rest) =
      match dfsVisit c fuel path done d with
      | .error q => .error q
      | .ok done1 => dfsMany c fuel path done1 rest := by
  have hgen : ∀ r : Except (List String) (List String),
      rest.foldl
        (fun acc x =>
          match acc with
          | .error q => .error q
          | .ok done1 => dfsVisit c fuel path done1 x) r =
        match r with
        | .error q => .error q
        | .ok done1 => dfsMany c fuel path done1 rest := by
    intro r
    cases r with
    | error q => exact dfs_fold_error c fuel path q rest
    | ok done1 => rfl
  unfold dfsMany
  rw [List.foldl_cons]
  exact hgen (dfsVisit c fuel path done d)

/-- If traversing a node list reports a path, that path is a genuine
cycle, provided visiting single nodes is sound and every listed node
extends the in-progress chain. -/
theorem dfsMany_error_sound (c : Collection) (fuel : Nat)
    (hvisit : ∀ path done n p,
      List.Chain' (fun a b => edgeB c a b = true) (path ++ [n]) →
      dfsVisit c fuel path done n = Except.error p → IsCyclePath c p) :
    ∀ (ds : List String) (path done : List String) (p : List String),
      (∀ d ∈ ds, List.Chain' (fun a b => edgeB c a b = true) (path ++ [d])) →
      dfsMany c fuel path done ds = Except.error p → IsCyclePath c p := by
  intro ds
  induction ds with
  | nil =>
    intro path done p hch h
    exact Except.noConfusion h
  | cons d rest ih =>
    intro path done p hch h
    rw [dfsMany_cons] at h
    cases hv : dfsVisit c fuel path done d with
    | error q =>
      rw [hv] at h
      cases h
      exact hvisit path done d p (hch d (by simp)) hv
    | ok done1 =>
      rw [hv] at h
      exact ih path done1 p (fun x hx => hch x (by simp [hx])) h

/-- Soundness of the depth-first visit: a reported path is a genuine cycle
of the dependency graph. -/
theorem dfsVisit_sound (c : Collection) :
    ∀ (fuel : Nat) (path done : List String) (n : String) (p : List String),
      List.Chain' (fun a b => edgeB c a b = true) (path ++ [n]) →
      dfsVisit c fuel path done n = Except.error p → IsCyclePath c p := by
  intro fuel
  induction fuel with
  | zero =>
    intro path done n p hch h
    exact Except.noConfusion h
  | succ fuel ih =>
    intro path done n p hch h
    unfold dfsVisit at h
    split at h
    · exact Except.noConfusion h
    · split at h
      · rename_i hco
        cases h
        exact extractCycle_sound c path n (List.elem_iff.mp hco) hch
      · split at h
        · exact Except.noConfusion h
        · rename_i comp hlk
          split at h
          · rename_i q hfold
            cases h
            have hm : dfsMany c fuel (path ++ [n]) done comp.deps =
                Except.error p := hfold
            refine dfsMany_error_sound c fuel ih comp.deps (path ++ [n]) done p
              ?_ hm
            intro d hd
            rw [List.chain'_append]
            refine ⟨hch, List.chain'_singleton d, ?_⟩
            intro x hx y hy
            rw [List.getLast?_concat] at hx
            cases hx
            cases hy
            unfold edgeB
            rw [hlk]
            exact List.elem_iff.mpr hd
          · exact Except.noConfusion h

/-- Soundness of the collection-wide cycle detection. -/
theorem dfsAll_sound (c : Collection) (p : List String) :
    dfsAll c = Except.error p → IsCyclePath c p := by
  intro h
  unfold dfsAll at h
  cases hm : dfsMany c (List.length c + 1) [] [] (names c) with
  | error q =>
    rw [hm] at h
    cases h
    exact dfsMany_error_sound c _ (dfsVisit_sound c _) (names c) [] [] p
      (fun d _ => List.chain'_singleton d) hm
  | ok u => rw [hm] at h; exact Except.noConfusion h

/- ## Theorems: the minimal-name selection -/

/-- The tie-break fold returns the start or a list element, and its name
is a lower bound for the start and every element. -/
theorem minFold_spec (xs : List Component) : ∀ acc : Component,
    (xs.foldl (fun a y => if strLt y.name a.name then y else a) acc = acc ∨
      xs.foldl (fun a y => if strLt y.name a.name then y else a) acc ∈ xs) ∧
    (xs.foldl (fun a y => if strLt y.name a.name then y else a) acc).name ≤
      acc.name ∧
    (∀ y ∈ xs,
      (xs.foldl (fun a y => if strLt y.name a.name then y else a) acc).name ≤
        y.name) := by
  induction xs with
  | nil =>
    intro acc
    exact ⟨Or.inl rfl, le_refl _, fun y hy => absurd hy (List.not_mem_nil y)⟩
  | cons z zs ih =>
    intro acc
    rw [List.foldl_cons]
    obtain ⟨ihmem, ihle, ihall⟩ :=
      ih (if strLt z.name acc.name then z else acc)
    have hsle : (if strLt z.name acc.name then z else acc).name ≤ acc.name := by
      by_cases hz : strLt z.name acc.name = true
      · rw [if_pos hz]; exact le_of_lt ((strLt_iff _ _).mp hz)
      · rw [if_neg hz]
    have hsz : (if strLt z.name acc.name then z else acc).name ≤ z.name := by
      by_cases hz : strLt z.name acc.name = true
      · rw [if_pos hz]
      · rw [if_neg hz]
        have := (not_congr (strLt_iff z.name acc.name)).mp hz
        exact le_of_not_lt this
    refine ⟨?_, le_trans ihle hsle, ?_⟩
    · rcases ihmem with hm | hm
      · rw [hm]
        by_cases hz : strLt z.name acc.name = true
        · rw [if_pos hz]; exact Or.inr (List.mem_cons_self z zs)
        · rw [if_neg hz]; exact Or.inl rfl
      · exact Or.inr (List.mem_cons_of_mem z hm)
    · intro y hy
      rcases List.mem_cons.mp hy with rfl | hm
      · exact le_trans ihle hsz
      · exact ihall y hm

/-- The selected component is a member with the smallest name. -/
theorem minByName_spec (l : List Component) (x : Component)
    (h : minByName l = some x) : x ∈ l ∧ ∀ y ∈ l, x.name ≤ y.name := by
  cases l with
  | nil => exact Option.noConfusion h
  | cons a as =>
    unfold minByName at h
    obtain rfl := Option.some.inj h
    obtain ⟨hmem, hle, hall⟩ := minFold_spec as a
    constructor
    · rcases hmem with hm | hm
      · rw [hm]; exact List.mem_cons_self a as
      · exact List.mem_cons_of_mem a hm
    · intro y hy
      rcases List.mem_cons.mp hy with rfl | hm
      · exact hle
      · exact hall y hm

/-- Selection fails only on the empty candidate list. -/
theorem minByName_none_iff (l : List Component) :
    minByName l = none ↔ l = [] := by
  cases l <;> simp [minByName]

/- ## Theorems: the deterministic topological ordering -/

/-- The central invariant of step 4: starting from a consistent placed and
remaining state, a successful run of the ordering loop emits every
component, without duplicates, each strictly after its dependencies, and
at every position the name-smallest component that was ready. -/
theorem kahnAux_ok_spec (c : Collection) (hnd : (names c).Nodup) :
    ∀ (fuel : Nat) (placed : List String) (remaining : List Component)
      (order : List String),
      remaining.length ≤ fuel →
      (∀ comp : Component, comp ∈ remaining ↔
        (comp ∈ c ∧ ¬ comp.name ∈ placed)) →
      remaining.Sublist c →
      placed.Nodup →
      (∀ n ∈ placed, n ∈ names c) →
      (∀ (k : Nat) (hk : k < placed.length) (comp : Component), comp ∈ c →
        comp.name = placed.get ⟨k, hk⟩ → ∀ d ∈ comp.deps, d ∈ placed.take k) →
      (∀ (k : Nat) (hk : k < placed.length) (comp' : Component), comp' ∈ c →
        ¬ comp'.name ∈ placed.take k → ready (placed.take k) comp' = true →
        placed.get ⟨k, hk⟩ ≤ comp'.name) →
      kahnAux c fuel placed remaining = Except.ok order →
      ((∀ comp : Component, comp ∈ c → comp.name ∈ order) ∧
        order.Nodup ∧
        (∀ n ∈ order, n ∈ names c) ∧
        (∀ (k : Nat) (hk : k < order.length) (comp : Component), comp ∈ c →
          comp.name = order.get ⟨k, hk⟩ → ∀ d ∈ comp.deps, d ∈ order.take k) ∧
        (∀ (k : Nat) (hk : k < order.length) (comp' : Component), comp' ∈ c →
          ¬ comp'.name ∈ order.take k → ready (order.take k) comp' = true →
          order.get ⟨k, hk⟩ ≤ comp'.name)) := by
  intro fuel
  induction fuel with
  | zero =>
    intro placed remaining order hlen hI1 hI2 hI3 hI4 hI5 hI6 h
    have hrem : remaining = [] := List.eq_nil_of_length_eq_zero
      (Nat.le_zero.mp hlen)
    subst hrem
    unfold kahnAux at h
    rw [if_pos rfl] at h
    obtain rfl := Except.ok.inj h
    refine ⟨?_, hI3, hI4, hI5, hI6⟩
    intro comp hc
    by_contra hn
    exact absurd ((hI1 comp).mpr ⟨hc, hn⟩) (List.not_mem_nil comp)
  | succ fuel ih =>
    intro placed remaining order hlen hI1 hI2 hI3 hI4 hI5 hI6 h
    by_cases hrem : remaining = []
    · subst hrem
      unfold kahnAux at h
      rw [if_pos rfl] at h
      obtain rfl := Except.ok.inj h
      refine ⟨?_, hI3, hI4, hI5, hI6⟩
      intro comp hc
      by_contra hn
      exact absurd ((hI1 comp).mpr ⟨hc, hn⟩) (List.not_mem_nil comp)
    · unfold kahnAux at h
      rw [if_neg hrem] at h
      have hndm : (List.map Component.name c).Nodup := hnd
      change (match minByName (remaining.filter (ready placed)) with
        | some comp =>
          kahnAux c fuel (placed ++ [comp.name]) (remaining.erase comp)
        | none => Except.error (placed, remaining)) = Except.ok order at h
      split at h
      rotate_left
      · exact Except.noConfusion h
      next comp hsel =>
      obtain ⟨hmf, hmin⟩ := minByName_spec _ comp hsel
      obtain ⟨hcr, hready⟩ := List.mem_filter.mp hmf
      obtain ⟨hcc, hcnp⟩ := (hI1 comp).mp hcr
      have hinj := List.inj_on_of_nodup_map hndm
      have hcnodup : remaining.Nodup :=
        (List.Nodup.of_map Component.name hndm).sublist hI2
      have hdeps : ∀ d ∈ comp.deps, d ∈ placed := by
        intro d hd
        unfold ready at hready
        have := (List.all_eq_true.mp hready) d hd
        exact List.elem_iff.mp this
      have hlen' : (remaining.erase comp).length ≤ fuel := by
        rw [List.length_erase_of_mem hcr]
        have hpos := List.length_pos_of_mem hcr
        omega
      have hI1' : ∀ comp' : Component, comp' ∈ remaining.erase comp ↔
          (comp' ∈ c ∧ ¬ comp'.name ∈ placed ++ [comp.name]) := by
        intro comp'
        rw [List.Nodup.mem_erase_iff hcnodup, hI1 comp', List.mem_append,
          List.mem_singleton]
        constructor
        · rintro ⟨hne, hcc', hnp⟩
          refine ⟨hcc', fun hor => ?_⟩
          rcases hor with h1 | h1
          · exact hnp h1
          · exact hne (hinj hcc' hcc h1)
        · rintro ⟨hcc', hnor⟩
          push_neg at hnor
          exact ⟨fun heq => hnor.2 (by rw [heq]), hcc', hnor.1⟩
      have hI2' : (remaining.erase comp).Sublist c :=
        (List.erase_sublist comp remaining).trans hI2
      have hI3' : (placed ++ [comp.name]).Nodup := by
        rw [List.nodup_append]
        exact ⟨hI3, List.nodup_singleton _,
          fun a ha hb => hcnp ((List.mem_singleton.mp hb) ▸ ha)⟩
      have hI4' : ∀ n ∈ placed ++ [comp.name], n ∈ names c := by
        intro n hn
        rcases List.mem_append.mp hn with h1 | h1
        · exact hI4 n h1
        · rw [List.mem_singleton.mp h1]
          exact List.mem_map_of_mem Component.name hcc
      have hI5' : ∀ (k : Nat) (hk : k < (placed ++ [comp.name]).length)
          (comp'' : Component), comp'' ∈ c →
          comp''.name = (placed ++ [comp.name]).get ⟨k, hk⟩ →
          ∀ d ∈ comp''.deps, d ∈ (placed ++ [comp.name]).take k := by
        intro k hk comp'' hcc'' hname d hd
        have hklen : k < placed.length + 1 := by
          simpa using hk
        by_cases hklt : k < placed.length
        · rw [List.take_append_of_le_length (le_of_lt hklt)]
          rw [List.get_append k hklt] at hname
          exact hI5 k hklt comp'' hcc'' hname d hd
        · have hkeq : k = placed.length := by omega
          subst hkeq
          rw [List.take_left]
          have hget : (placed ++ [comp.name]).get ⟨placed.length, hk⟩ =
              comp.name := List.get_of_append rfl rfl
          rw [hget] at hname
          have heq : comp'' = comp := hinj hcc'' hcc hname
          subst heq
          exact hdeps d hd
      have hI6' : ∀ (k : Nat) (hk : k < (placed ++ [comp.name]).length)
          (comp' : Component), comp' ∈ c →
          ¬ comp'.name ∈ (placed ++ [comp.name]).take k →
          ready ((placed ++ [comp.name]).take k) comp' = true →
          (placed ++ [comp.name]).get ⟨k, hk⟩ ≤ comp'.name := by
        intro k hk comp' hcc' hnin hready'
        have hklen : k < placed.length + 1 := by
          simpa using hk
        by_cases hklt : k < placed.length
        · rw [List.take_append_of_le_length (le_of_lt hklt)] at hnin hready'
          rw [List.get_append k hklt]
          exact hI6 k hklt comp' hcc' hnin hready'
        · have hkeq : k = placed.length := by omega
          subst hkeq
          rw [List.take_left] at hnin hready'
          have hget : (placed ++ [comp.name]).get ⟨placed.length, hk⟩ =
              comp.name := List.get_of_append rfl rfl
          rw [hget]
          have hmem' : comp' ∈ remaining := (hI1 comp').mpr ⟨hcc', hnin⟩
          exact hmin comp' (List.mem_filter.mpr ⟨hmem', hready'⟩)
      exact ih (placed ++ [comp.name]) (remaining.erase comp) order hlen'
        hI1' hI2' hI3' hI4' hI5' hI6' h

/-- When the ordering loop sticks, components remain, the placed and
remaining state is still consistent, and no remaining component is ready:
each keeps an unplaced dependency. -/
theorem kahnAux_stuck_spec (c : Collection) (hnd : (names c).Nodup) :
    ∀ (fuel : Nat) (placed : List String) (remaining : List Component)
      (placed' : List String) (remaining' : List Component),
      remaining.length ≤ fuel →
      (∀ comp : Component, comp ∈ remaining ↔
        (comp ∈ c ∧ ¬ comp.name ∈ placed)) →
      remaining.Sublist c →
      kahnAux c fuel placed remaining = Except.error (placed', remaining') →
      (remaining' ≠ [] ∧
        (∀ comp : Component, comp ∈ remaining' ↔
          (comp ∈ c ∧ ¬ comp.name ∈ placed')) ∧
        remaining'.Sublist c ∧
        (∀ comp ∈ remaining', ready placed' comp = false)) := by
  intro fuel
  induction fuel with
  | zero =>
    intro placed remaining placed' remaining' hlen hI1 hI2 h
    have hrem : remaining = [] := List.eq_nil_of_length_eq_zero
      (Nat.le_zero.mp hlen)
    subst hrem
    unfold kahnAux at h
    rw [if_pos rfl] at h
    exact Except.noConfusion h
  | succ fuel ih =>
    intro placed remaining placed' remaining' hlen hI1 hI2 h
    by_cases hrem : remaining = []
    · subst hrem
      unfold kahnAux at h
      rw [if_pos rfl] at h
      exact Except.noConfusion h
    · unfold kahnAux at h
      rw [if_neg hrem] at h
      have hndm : (List.map Component.name c).Nodup := hnd
      change (match minByName (remaining.filter (ready placed)) with
        | some comp =>
          kahnAux c fuel (placed ++ [comp.name]) (remaining.erase comp)
        | none => Except.error (placed, remaining)) =
          Except.error (placed', remaining') at h
      split at h
      rotate_left
      · rename_i hsel
        have hpair : (placed, remaining) = (placed', remaining') :=
          Except.error.inj h
        obtain ⟨hp, hr⟩ := Prod.mk.injEq .. ▸ hpair
        subst hp
        subst hr
        refine ⟨hrem, hI1, hI2, ?_⟩
        intro comp hcm
        by_contra hne
        have hrt : ready placed comp = true := by
          cases hrd : ready placed comp
          · exact absurd hrd hne
          · rfl
        have hmemf : comp ∈ remaining.filter (ready placed) :=
          List.mem_filter.mpr ⟨hcm, hrt⟩
        rw [(minByName_none_iff _).mp hsel] at hmemf
        exact absurd hmemf (List.not_mem_nil comp)
      next comp hsel =>
      obtain ⟨hmf, hmin⟩ := minByName_spec _ comp hsel
      obtain ⟨hcr, hready⟩ := List.mem_filter.mp hmf
      obtain ⟨hcc, hcnp⟩ := (hI1 comp).mp hcr
      have hinj := List.inj_on_of_nodup_map hndm
      have hcnodup : remaining.Nodup :=
        (List.Nodup.of_map Component.name hndm).sublist hI2
      have hlen' : (remaining.erase comp).length ≤ fuel := by
        rw [List.length_erase_of_mem hcr]
        have hpos := List.length_pos_of_mem hcr
        omega
      have hI1' : ∀ comp' : Component, comp' ∈ remaining.erase comp ↔
          (comp' ∈ c ∧ ¬ comp'.name ∈ placed ++ [comp.name]) := by
        intro comp'
        rw [List.Nodup.mem_erase_iff hcnodup, hI1 comp', List.mem_append,
          List.mem_singleton]
        constructor
        · rintro ⟨hne, hcc', hnp⟩
          refine ⟨hcc', fun hor => ?_⟩
          rcases hor with h1 | h1
          · exact hnp h1
          · exact hne (hinj hcc' hcc h1)
        · rintro ⟨hcc', hnor⟩
          push_neg at hnor
          exact ⟨fun heq => hnor.2 (by rw [heq]), hcc', hnor.1⟩
      have hI2' : (remaining.erase comp).Sublist c :=
        (List.erase_sublist comp remaining).trans hI2
      exact ih (placed ++ [comp.name]) (remaining.erase comp) placed'
        remaining' hlen' hI1' hI2' h

/-- Walking unplaced dependencies inside a finite vertex set in which every
vertex keeps an unplaced dependency must close a genuine cycle. -/
theorem walkCycle_sound (c : Collection) (placed : List String)
    (R : List String)
    (hstep : ∀ n ∈ R, ∃ d, stepDep c placed n = some d ∧ d ∈ R ∧
      edgeB c n d = true) :
    ∀ (fuel : Nat) (path : List String) (current : String),
      path.Nodup →
      (∀ x ∈ path, x ∈ R) →
      current ∈ R →
      List.Chain' (fun a b => edgeB c a b = true) (path ++ [current]) →
      R.length + 1 ≤ fuel + path.length →
      IsCyclePath c (walkCycle c placed fuel path current) := by
  intro fuel
  induction fuel with
  | zero =>
    intro path current hpnd hpR hcR hch hlen
    by_cases hc : path.contains current = true
    · unfold walkCycle
      rw [if_pos hc]
      exact extractCycle_sound c path current (List.elem_iff.mp hc) hch
    · exfalso
      have hnd2 : (path ++ [current]).Nodup := by
        rw [List.nodup_append]
        refine ⟨hpnd, List.nodup_singleton _, ?_⟩
        intro a ha hb
        rw [List.mem_singleton.mp hb] at ha
        exact hc (List.elem_iff.mpr ha)
      have hsub : (path ++ [current]) ⊆ R := by
        intro x hx
        rcases List.mem_append.mp hx with h1 | h1
        · exact hpR x h1
        · rw [List.mem_singleton.mp h1]; exact hcR
      have hle := (hnd2.subperm hsub).length_le
      rw [List.length_append, List.length_singleton] at hle
      omega
  | succ fuel ih =>
    intro path current hpnd hpR hcR hch hlen
    by_cases hc : path.contains current = true
    · unfold walkCycle
      rw [if_pos hc]
      exact extractCycle_sound c path current (List.elem_iff.mp hc) hch
    · obtain ⟨d, hd, hdR, hedge⟩ := hstep current hcR
      unfold walkCycle
      rw [if_neg hc, hd]
      have hpnd' : (path ++ [current]).Nodup := by
        rw [List.nodup_append]
        refine ⟨hpnd, List.nodup_singleton _, ?_⟩
        intro a ha hb
        rw [List.mem_singleton.mp hb] at ha
        exact hc (List.elem_iff.mpr ha)
      have hpR' : ∀ x ∈ path ++ [current], x ∈ R := by
        intro x hx
        rcases List.mem_append.mp hx with h1 | h1
        · exact hpR x h1
        · rw [List.mem_singleton.mp h1]; exact hcR
      have hch' : List.Chain' (fun a b => edgeB c a b = true)
          ((path ++ [current]) ++ [d]) := by
        rw [List.chain'_append]
        refine ⟨hch, List.chain'_singleton d, ?_⟩
        intro x hx y hy
        rw [List.getLast?_concat] at hx
        cases hx
        cases hy
        exact hedge
      have hlen' : R.length + 1 ≤ fuel + (path ++ [current]).length := by
        rw [List.length_append, List.length_singleton]
        omega
      exact ih (path ++ [current]) d hpnd' hpR' hdR hch' hlen'

/- ## Theorems: lookup, resolution and graph facts -/

/-- A successful lookup returns a member carrying the requested name. -/
theorem lookup_mem_name (c : Collection) (n : String) (comp : Component)
    (h : lookup c n = some comp) : comp ∈ c ∧ comp.name = n := by
  unfold lookup at h
  refine ⟨List.mem_of_find?_eq_some h, ?_⟩
  have := List.find?_some h
  simpa using this

/-- With unique names, looking a member component up by name returns it. -/
theorem lookup_of_mem (c : Collection) (hnd : (names c).Nodup)
    (comp : Component) (hm : comp ∈ c) :
    lookup c comp.name = some comp := by
  have hndm : (List.map Component.name c).Nodup := hnd
  have hinj := List.inj_on_of_nodup_map hndm
  cases hlk : lookup c comp.name with
  | none =>
    exfalso
    unfold lookup at hlk
    have := List.find?_eq_none.mp hlk comp hm
    simp at this
  | some comp' =>
    obtain ⟨hm', hn'⟩ := lookup_mem_name c comp.name comp' hlk
    rw [hinj hm' hm hn']

/-- A resolvable name is the name of a member component. -/
theorem lookup_isSome_mem_names (c : Collection) (n : String)
    (h : (lookup c n).isSome = true) : n ∈ names c := by
  cases hlk : lookup c n with
  | none => rw [hlk] at h; exact Bool.noConfusion h
  | some comp =>
    obtain ⟨hm, hn⟩ := lookup_mem_name c n comp hlk
    rw [← hn]
    exact List.mem_map_of_mem Component.name hm

/-- The resolution scan succeeds exactly when every declared dependency
resolves. -/
theorem findUnresolvedAux_none_iff (c : Collection) :
    ∀ l : List Component, findUnresolvedAux c l = none ↔
      ∀ comp ∈ l, ∀ d ∈ comp.deps, (lookup c d).isSome = true := by
  intro l
  induction l with
  | nil => simp [findUnresolvedAux]
  | cons comp rest ih =>
    unfold findUnresolvedAux
    cases hf : List.find? (fun d => !(lookup c d).isSome) comp.deps with
    | some d =>
      apply iff_of_false
      · simp
      · intro hall
        have hmem := List.mem_of_find?_eq_some hf
        have hprop := List.find?_some hf
        rw [Bool.not_eq_true'] at hprop
        rw [hall comp (List.mem_cons_self comp rest) d hmem] at hprop
        exact Bool.noConfusion hprop
    | none =>
      rw [ih]
      constructor
      · intro hall comp' hc' d hd
        rcases List.mem_cons.mp hc' with rfl | hm
        · have := List.find?_eq_none.mp hf d hd
          rw [Bool.not_eq_true'] at this
          exact Bool.of_not_eq_false (by simpa using this)
        · exact hall comp' hm d hd
      · intro hall comp' hm d hd
        exact hall comp' (List.mem_cons_of_mem comp hm) d hd

/-- findUnresolved succeeds exactly when every dependency resolves. -/
theorem findUnresolved_none_iff (c : Collection) :
    findUnresolved c = none ↔
      ∀ comp ∈ c, ∀ d ∈ comp.deps, (lookup c d).isSome = true :=
  findUnresolvedAux_none_iff c c

/-- An edge originates in a member component that declares the target
dependency. -/
theorem edge_exists (c : Collection) (a b : String)
    (h : edgeB c a b = true) :
    ∃ comp, comp ∈ c ∧ comp.name = a ∧ b ∈ comp.deps := by
  unfold edgeB at h
  cases hlk : lookup c a with
  | none => rw [hlk] at h; exact Bool.noConfusion h
  | some comp =>
    rw [hlk] at h
    obtain ⟨hm, hn⟩ := lookup_mem_name c a comp hlk
    exact ⟨comp, hm, hn, List.elem_iff.mp h⟩

/-- A member of a prefix occurs at an index below the prefix length. -/
theorem indexOf_lt_of_mem_take :
    ∀ (l : List String) (k : Nat) (b : String), b ∈ l.take k →
      l.indexOf b < k := by
  intro l
  induction l with
  | nil => intro k b hb; rw [List.take_nil] at hb; cases hb
  | cons x xs ih =>
    intro k b hb
    cases k with
    | zero => cases hb
    | succ k =>
      rw [List.take_succ_cons] at hb
      by_cases hxb : x = b
      · subst hxb
        rw [List.indexOf_cons_self]
        exact Nat.succ_pos k
      · have hm : b ∈ xs.take k := by
          rcases List.mem_cons.mp hb with h1 | h1
          · exact absurd h1.symm hxb
          · exact h1
        rw [List.indexOf_cons_ne xs hxb]
        exact Nat.succ_lt_succ (ih k b hm)

/-- In a topologically ordered component list, the target of an edge
occurs strictly earlier than its source. -/
theorem idx_lt_of_edge (c : Collection) (order : List String)
    (hcomplete : ∀ comp : Component, comp ∈ c → comp.name ∈ order)
    (htopo : ∀ (k : Nat) (hk : k < order.length) (comp : Component),
      comp ∈ c → comp.name = order.get ⟨k, hk⟩ →
      ∀ d ∈ comp.deps, d ∈ order.take k)
    (a b : String) (hedge : edgeB c a b = true) :
    order.indexOf b < order.indexOf a := by
  obtain ⟨compA, hmA, hnA, hbA⟩ := edge_exists c a b hedge
  have hmo : a ∈ order := hnA ▸ hcomplete compA hmA
  have hk : order.indexOf a < order.length := List.indexOf_lt_length.mpr hmo
  have hget : order.get ⟨order.indexOf a, hk⟩ = a := List.indexOf_get hk
  have htake := htopo (order.indexOf a) hk compA hmA (by rw [hget, hnA]) b hbA
  exact indexOf_lt_of_mem_take order (order.indexOf a) b htake

/-- Along a non-trivial edge chain, the index of the last node is strictly
below the index of the first. -/
theorem chain_idx_lt (c : Collection) (order : List String)
    (hcomplete : ∀ comp : Component, comp ∈ c → comp.name ∈ order)
    (htopo : ∀ (k : Nat) (hk : k < order.length) (comp : Component),
      comp ∈ c → comp.name = order.get ⟨k, hk⟩ →
      ∀ d ∈ comp.deps, d ∈ order.take k) :
    ∀ (p : List String) (a : String),
      List.Chain' (fun x y => edgeB c x y = true) (a :: p) →
      (hne : p ≠ []) →
      order.indexOf ((a :: p).getLast (List.cons_ne_nil a p)) <
        order.indexOf a := by
  intro p
  induction p with
  | nil => intro a _ hne; exact absurd rfl hne
  | cons b rest ih =>
    intro a hch _
    obtain ⟨hab, hch'⟩ := List.chain'_cons.mp hch
    have hlt : order.indexOf b < order.indexOf a :=
      idx_lt_of_edge c order hcomplete htopo a b hab
    cases hrest : rest with
    | nil =>
      subst hrest
      simpa using hlt
    | cons r rs =>
      subst hrest
      have hlast : (a :: b :: r :: rs).getLast (List.cons_ne_nil _ _) =
          (b :: r :: rs).getLast (List.cons_ne_nil _ _) :=
        List.getLast_cons (List.cons_ne_nil _ _)
      rw [hlast]
      exact lt_trans (ih b hch' (List.cons_ne_nil _ _)) hlt

/-- A collection admitting a complete topological order is acyclic. -/
theorem acyclic_of_topo (c : Collection) (order : List String)
    (hcomplete : ∀ comp : Component, comp ∈ c → comp.name ∈ order)
    (htopo : ∀ (k : Nat) (hk : k < order.length) (comp : Component),
      comp ∈ c → comp.name = order.get ⟨k, hk⟩ →
      ∀ d ∈ comp.deps, d ∈ order.take k) :
    Acyclic c := by
  rintro ⟨p, hlen, hhl, hch⟩
  cases p with
  | nil => simp at hlen
  | cons a q =>
    cases q with
    | nil => simp at hlen
    | cons b rest =>
      have hlast : (a :: b :: rest).getLast (List.cons_ne_nil _ _) = a := by
        have h1 : (a :: b :: rest).getLast? =
            some ((a :: b :: rest).getLast (List.cons_ne_nil _ _)) :=
          List.getLast?_eq_getLast _ _
        have h2 : (a :: b :: rest).head? = some a := rfl
        rw [h2, h1] at hhl
        exact (Option.some.inj hhl).symm
      have := chain_idx_lt c order hcomplete htopo (b :: rest) a hch
        (List.cons_ne_nil _ _)
      rw [hlast] at this
      exact lt_irrefl _ this

/-- A false Boolean all yields a witness element. -/
theorem all_false_witness (l : List String) (p : String → Bool)
    (h : l.all p = false) : ∃ x ∈ l, p x = false := by
  by_contra hn
  push_neg at hn
  have hall : l.all p = true := by
    rw [List.all_eq_true]
    intro x hx
    cases hpx : p x
    · exact absurd hpx (hn x hx)
    · rfl
  rw [hall] at h
  exact Bool.noConfusion h

/-- From a stuck state of the ordering loop, every remaining component can
step along an unplaced dependency to another remaining component. -/
theorem stuck_hstep (c : Collection) (hnd : (names c).Nodup)
    (hres : ∀ comp ∈ c, ∀ d ∈ comp.deps, (lookup c d).isSome = true)
    (placed' : List String) (remaining' : List Component)
    (hI1' : ∀ comp : Component, comp ∈ remaining' ↔
      (comp ∈ c ∧ ¬ comp.name ∈ placed'))
    (hnr : ∀ comp ∈ remaining', ready placed' comp = false) :
    ∀ n ∈ names remaining', ∃ d, stepDep c placed' n = some d ∧
      d ∈ names remaining' ∧ edgeB c n d = true := by
  intro n hn
  have hn' : n ∈ List.map Component.name remaining' := hn
  obtain ⟨comp, hcm, rfl⟩ := List.mem_map.mp hn'
  obtain ⟨hcc, hnp⟩ := (hI1' comp).mp hcm
  have hlk : lookup c comp.name = some comp := lookup_of_mem c hnd comp hcc
  have hrf : comp.deps.all (fun d => placed'.contains d) = false := hnr comp hcm
  obtain ⟨d0, hd0m, hd0c⟩ := all_false_witness _ _ hrf
  have hfs : (comp.deps.find? (fun d => !(placed'.contains d))).isSome :=
    List.find?_isSome.mpr ⟨d0, hd0m, by rw [hd0c]; rfl⟩
  obtain ⟨d, hd⟩ := Option.isSome_iff_exists.mp hfs
  have hdm := List.mem_of_find?_eq_some hd
  have hdp := List.find?_some hd
  rw [Bool.not_eq_true'] at hdp
  have hdnp : ¬ d ∈ placed' := fun hmem =>
    Bool.noConfusion ((List.elem_iff.mpr hmem).symm.trans hdp)
  have hdi : (lookup c d).isSome = true := hres comp hcc d hdm
  cases hlkd : lookup c d with
  | none => rw [hlkd] at hdi; exact Bool.noConfusion hdi
  | some compD =>
    obtain ⟨hmD, hnD⟩ := lookup_mem_name c d compD hlkd
    have hDr : compD ∈ remaining' := (hI1' compD).mpr ⟨hmD, by rw [hnD]; exact hdnp⟩
    refine ⟨d, ?_, ?_, ?_⟩
    · unfold stepDep
      rw [hlk]
      exact hd
    · rw [← hnD]
      exact List.mem_map_of_mem Component.name hDr
    · unfold edgeB
      rw [hlk]
      exact List.elem_iff.mpr hdm

/- ## Theorems: the evaluation phase -/

/-- Shape of a successful per-component evaluation when the requirement
parses and references only recognized identifiers. -/
theorem evalComp_ok (known conf : List String) (comp : Component) (e : BExpr)
    (hpe : parseReq comp.requiresExpr = some e)
    (hk : ∀ i ∈ e.idents, known.contains i = true) :
    evalComp known conf comp = Except.ok (e.eval conf,
      if e.eval conf then [] else
        e.idents.filter (fun i => !(conf.contains i))) := by
  unfold evalComp
  rw [hpe]
  have hfn : e.idents.find? (fun i => !(known.contains i)) = none :=
    List.find?_eq_none.mpr (fun i hi => by rw [hk i hi]; simp)
  simp only [hfn]

/-- When every listed component resolves, parses and references only
recognized identifiers, the evaluation phase succeeds; the flags follow
the list, each flag is the evaluation of its component requirement, and
the missing accumulator collects exactly the unconfigured identifiers of
unsatisfied requirements. -/
theorem evalPhase_ok_spec (c : Collection) (known conf : List String) :
    ∀ order : List String,
      (∀ n ∈ order, ∃ comp, lookup c n = some comp ∧
        ∃ e, parseReq comp.requiresExpr = some e ∧
          (∀ i ∈ e.idents, known.contains i = true)) →
      ∃ flags miss, evalPhase c known conf order = Except.ok (flags, miss) ∧
        List.map Prod.fst flags = order ∧
        (∀ pr ∈ flags, ∃ comp e, lookup c pr.1 = some comp ∧
          parseReq comp.requiresExpr = some e ∧ pr.2 = e.eval conf) ∧
        (∀ i : String, i ∈ miss ↔ ∃ n ∈ order, ∃ comp e,
          lookup c n = some comp ∧ parseReq comp.requiresExpr = some e ∧
          e.eval conf = false ∧ i ∈ e.idents ∧ conf.contains i = false) := by
  intro order
  induction order with
  | nil =>
    intro _
    refine ⟨[], [], rfl, rfl, fun pr hpr => absurd hpr (List.not_mem_nil pr), ?_⟩
    intro i
    simp
  | cons n rest ih =>
    intro h
    obtain ⟨comp, hlk, e, hpe, hk⟩ := h n (List.mem_cons_self n rest)
    obtain ⟨flags', miss', hep', hmap', hflags', hmiss'⟩ :=
      ih (fun m hm => h m (List.mem_cons_of_mem n hm))
    have hec := evalComp_ok known conf comp e hpe hk
    refine ⟨(n, e.eval conf) :: flags',
      (if e.eval conf then [] else
        e.idents.filter (fun i => !(conf.contains i))) ++ miss', ?_, ?_, ?_, ?_⟩
    · unfold evalPhase
      simp only [hlk, hec, hep']
    · rw [List.map_cons, hmap']
    · intro pr hpr
      rcases List.mem_cons.mp hpr with rfl | hm
      · exact ⟨comp, e, hlk, hpe, rfl⟩
      · exact hflags' pr hm
    · intro i
      rw [List.mem_append]
      constructor
      · intro hi
        rcases hi with hi | hi
        · by_cases hev : e.eval conf = true
          · rw [if_pos hev] at hi
            exact absurd hi (List.not_mem_nil i)
          · rw [if_neg hev] at hi
            obtain ⟨him, hic⟩ := List.mem_filter.mp hi
            rw [Bool.not_eq_true'] at hic
            refine ⟨n, List.mem_cons_self n rest, comp, e, hlk, hpe, ?_, him, hic⟩
            cases hev2 : e.eval conf
            · rfl
            · exact absurd hev2 hev
        · obtain ⟨m, hm, comp', e', hlk', hpe', hev', him', hic'⟩ :=
            (hmiss' i).mp hi
          exact ⟨m, List.mem_cons_of_mem n hm, comp', e', hlk', hpe', hev',
            him', hic'⟩
      · rintro ⟨m, hm, comp', e', hlk', hpe', hev', him', hic'⟩
        rcases List.mem_cons.mp hm with rfl | hmr
        · left
          rw [hlk] at hlk'
          obtain rfl := Option.some.inj hlk'
          rw [hpe] at hpe'
          obtain rfl := Option.some.inj hpe'
          rw [if_neg (by rw [hev']; exact Bool.noConfusion)]
          exact List.mem_filter.mpr ⟨him', by rw [hic']; rfl⟩
        · right
          exact (hmiss' i).mpr ⟨m, hmr, comp', e', hlk', hpe', hev', him', hic'⟩

/- ## Theorems: Build on acyclic, satisfied collections (C2) -/

/-- C2 (amended): for a valid Collection (non-empty, unique names) that is
acyclic, whose dependencies all resolve, and whose every requirement
parses, references only recognized integrations and evaluates true against
the configured set, Build succeeds; every component appears in the
returned order, exactly once, strictly after all of its dependencies, with
every satisfaction flag true, and at every position the order carries the
name-smallest component that was ready, the ascending-name tie-break. -/
theorem build_succeeds_on_satisfied_acyclic (c : Collection)
    (known conf : List String)
    (hval : validCollection c = true)
    (hres : ∀ comp ∈ c, ∀ d ∈ comp.deps, (lookup c d).isSome = true)
    (hacy : Acyclic c)
    (hreq : ∀ comp ∈ c, ∃ e, parseReq comp.requiresExpr = some e ∧
      (∀ i ∈ e.idents, known.contains i = true) ∧ e.eval conf = true) :
    ∃ flags : List (String × Bool), Build c known conf = Except.ok flags ∧
      (∀ pr ∈ flags, pr.2 = true) ∧
      (∀ comp ∈ c, comp.name ∈ List.map Prod.fst flags) ∧
      (List.map Prod.fst flags).Nodup ∧
      (∀ n ∈ List.map Prod.fst flags, n ∈ names c) ∧
      (∀ comp ∈ c, ∀ d ∈ comp.deps,
        (List.map Prod.fst flags).indexOf d <
          (List.map Prod.fst flags).indexOf comp.name) ∧
      (∀ (k : Nat) (hk : k < (List.map Prod.fst flags).length)
        (comp' : Component), comp' ∈ c →
        ¬ comp'.name ∈ (List.map Prod.fst flags).take k →
        ready ((List.map Prod.fst flags).take k) comp' = true →
        (List.map Prod.fst flags).get ⟨k, hk⟩ ≤ comp'.name) := by
  have hnd : (names c).Nodup := by
    rw [validCollection, Bool.and_eq_true] at hval
    exact (nodupBy_iff (names c)).mp hval.2
  have hfu : findUnresolved c = none := (findUnresolved_none_iff c).mpr hres
  cases hdfs : dfsAll c with
  | error p => exact absurd ⟨p, dfsAll_sound c p hdfs⟩ hacy
  | ok u =>
    cases hka : kahnAux c (List.length c) [] c with
    | error st =>
      exfalso
      obtain ⟨hne, hI1', hsub', hnr⟩ := kahnAux_stuck_spec c hnd
        (List.length c) [] c st.1 st.2 (le_refl _)
        (fun comp => by simp) (List.Sublist.refl c) (by rw [hka])
      have hstep := stuck_hstep c hnd hres st.1 st.2 hI1' hnr
      have hcur : headName st.2 ∈ names st.2 := by
        cases hrem : st.2 with
        | nil => exact absurd hrem hne
        | cons r rs => simp [headName, names]
      have hlen2 : (names st.2).length + 1 ≤ (List.length c + 1) + 0 := by
        have := hsub'.length_le
        simp only [names, List.length_map]
        omega
      have hcyc := walkCycle_sound c st.1 (names st.2) hstep
        (List.length c + 1) [] (headName st.2) (List.nodup_nil)
        (fun x hx => absurd hx (List.not_mem_nil x)) hcur
        (List.chain'_singleton _) hlen2
      exact hacy ⟨_, hcyc⟩
    | ok order =>
      obtain ⟨hcomplete, hordnd, hordnames, htopo, hgreedy⟩ :=
        kahnAux_ok_spec c hnd (List.length c) [] c order (le_refl _)
        (fun comp => by simp) (List.Sublist.refl c) List.nodup_nil
        (fun n hn => absurd hn (List.not_mem_nil n))
        (fun k hk => absurd hk (Nat.not_lt_zero k))
        (fun k hk => absurd hk (Nat.not_lt_zero k)) hka
      have horder : ∀ n ∈ order, ∃ comp, lookup c n = some comp ∧
          ∃ e, parseReq comp.requiresExpr = some e ∧
            (∀ i ∈ e.idents, known.contains i = true) := by
        intro n hn
        have hn2 : n ∈ List.map Component.name c := hordnames n hn
        obtain ⟨comp, hcm, rfl⟩ := List.mem_map.mp hn2
        obtain ⟨e, hpe, hke, _⟩ := hreq comp hcm
        exact ⟨comp, lookup_of_mem c hnd comp hcm, e, hpe, hke⟩
      obtain ⟨flags, miss, hep, hmap, hflags, hmiss⟩ :=
        evalPhase_ok_spec c known conf order horder
      have hmissnil : miss = [] := by
        rw [List.eq_nil_iff_forall_not_mem]
        intro i hi
        obtain ⟨n, hn, comp', e', hlk', hpe', hev', _, _⟩ := (hmiss i).mp hi
        obtain ⟨hm', _⟩ := lookup_mem_name c n comp' hlk'
        obtain ⟨e'', hpe'', _, hev''⟩ := hreq comp' hm'
        rw [hpe'] at hpe''
        obtain rfl := Option.some.inj hpe''
        rw [hev'] at hev''
        exact Bool.noConfusion hev''
      subst hmissnil
      refine ⟨flags, ?_, ?_, ?_, ?_, ?_, ?_, ?_⟩
      · unfold Build
        rw [if_pos hval]
        simp only [hfu, hdfs, hka, hep, if_true]
      · intro pr hpr
        obtain ⟨comp', e', hlk', hpe', hprv⟩ := hflags pr hpr
        obtain ⟨hm', _⟩ := lookup_mem_name c pr.1 comp' hlk'
        obtain ⟨e'', hpe'', _, hev''⟩ := hreq comp' hm'
        rw [hpe'] at hpe''
        obtain rfl := Option.some.inj hpe''
        rw [hprv, hev'']
      · rw [hmap]; exact hcomplete
      · rw [hmap]; exact hordnd
      · rw [hmap]; exact hordnames
      · rw [hmap]
        intro comp hcm d hd
        apply idx_lt_of_edge c order hcomplete htopo comp.name d
        unfold edgeB
        rw [lookup_of_mem c hnd comp hcm]
        exact List.elem_iff.mpr hd
      · rw [hmap]; exact hgreedy

/-- A collection without dependencies has no cycle. -/
theorem acyclic_of_no_deps (c : Collection)
    (h : ∀ comp ∈ c, comp.deps = []) : Acyclic c := by
  rintro ⟨p, hlen, hhl, hch⟩
  cases p with
  | nil => simp at hlen
  | cons a q =>
    cases q with
    | nil => simp at hlen
    | cons b rest =>
      have hedge : edgeB c a b = true := (List.chain'_cons.mp hch).1
      obtain ⟨comp, hm, _, hbd⟩ := edge_exists c a b hedge
      rw [h comp hm] at hbd
      exact absurd hbd (List.not_mem_nil b)

/-- Counterexample to C2 as stated: the collection with the single
component app requiring the unconfigured integration github is acyclic and
fully resolvable, yet Build fails with the missing-integrations error
rather than succeeding. -/
theorem build_succeeds_on_acyclic_cex :
    (∀ comp ∈ ([⟨"app", [], "github"⟩] : Collection), ∀ d ∈ comp.deps,
      (lookup [⟨"app", [], "github"⟩] d).isSome = true) ∧
    Acyclic [⟨"app", [], "github"⟩] ∧
    validCollection [⟨"app", [], "github"⟩] = true ∧
    Build [⟨"app", [], "github"⟩] ["github"] [] =
      Except.error (BuildError.missingIntegrations ["github"]) := by
  refine ⟨by decide, acyclic_of_no_deps _ (by decide), by decide, by decide⟩

/-- A concrete instance of the amended C2: all requirements satisfied, the
build succeeds with the deterministic ascending order. -/
theorem build_succeeds_on_satisfied_acyclic_witness :
    ∃ flags : List (String × Bool),
      Build [⟨"b", [], ""⟩, ⟨"a", [], "git"⟩] ["git"] ["git"] =
        Except.ok flags ∧
      (∀ pr ∈ flags, pr.2 = true) ∧
      (∀ comp ∈ ([⟨"b", [], ""⟩, ⟨"a", [], "git"⟩] : Collection),
        comp.name ∈ List.map Prod.fst flags) ∧
      (List.map Prod.fst flags).Nodup ∧
      (∀ n ∈ List.map Prod.fst flags,
        n ∈ names [⟨"b", [], ""⟩, ⟨"a", [], "git"⟩]) ∧
      (∀ comp ∈ ([⟨"b", [], ""⟩, ⟨"a", [], "git"⟩] : Collection),
        ∀ d ∈ comp.deps,
        (List.map Prod.fst flags).indexOf d <
          (List.map Prod.fst flags).indexOf comp.name) ∧
      (∀ (k : Nat) (hk : k < (List.map Prod.fst flags).length)
        (comp' : Component),
        comp' ∈ ([⟨"b", [], ""⟩, ⟨"a", [], "git"⟩] : Collection) →
        ¬ comp'.name ∈ (List.map Prod.fst flags).take k →
        ready ((List.map Prod.fst flags).take k) comp' = true →
        (List.map Prod.fst flags).get ⟨k, hk⟩ ≤ comp'.name) := by
  apply build_succeeds_on_satisfied_acyclic
  · decide
  · decide
  · exact acyclic_of_no_deps _ (by decide)
  · intro comp hcm
    rcases List.mem_cons.mp hcm with rfl | hcm2
    · exact ⟨BExpr.tt, rfl, by decide, rfl⟩
    · rcases List.mem_cons.mp hcm2 with rfl | hcm3
      · exact ⟨BExpr.var "git", by decide, by decide, by decide⟩
      · exact absurd hcm3 (List.not_mem_nil comp)

/- ## Theorems: Build on cyclic collections (C3) -/

/-- C3 (amended): for a valid Collection with all dependencies resolvable
whose dependency graph contains a cycle, Build fails with the
circular-dependency error, and the reported path is itself a cycle of the
graph, returning to its starting component. -/
theorem build_reports_cycle (c : Collection) (known conf : List String)
    (hval : validCollection c = true)
    (hres : ∀ comp ∈ c, ∀ d ∈ comp.deps, (lookup c d).isSome = true)
    (hcyc : HasCycle c) :
    ∃ p, Build c known conf = Except.error (BuildError.circularDependency p) ∧
      IsCyclePath c p := by
  have hnd : (names c).Nodup := by
    rw [validCollection, Bool.and_eq_true] at hval
    exact (nodupBy_iff (names c)).mp hval.2
  have hfu : findUnresolved c = none := (findUnresolved_none_iff c).mpr hres
  cases hdfs : dfsAll c with
  | error p =>
    refine ⟨p, ?_, dfsAll_sound c p hdfs⟩
    unfold Build
    rw [if_pos hval]
    simp only [hfu, hdfs]
  | ok u =>
    cases hka : kahnAux c (List.length c) [] c with
    | ok order =>
      exfalso
      obtain ⟨hcomplete, _, _, htopo, _⟩ :=
        kahnAux_ok_spec c hnd (List.length c) [] c order (le_refl _)
        (fun comp => by simp) (List.Sublist.refl c) List.nodup_nil
        (fun n hn => absurd hn (List.not_mem_nil n))
        (fun k hk => absurd hk (Nat.not_lt_zero k))
        (fun k hk => absurd hk (Nat.not_lt_zero k)) hka
      exact acyclic_of_topo c order hcomplete htopo hcyc
    | error st =>
      obtain ⟨hne, hI1', hsub', hnr⟩ := kahnAux_stuck_spec c hnd
        (List.length c) [] c st.1 st.2 (le_refl _)
        (fun comp => by simp) (List.Sublist.refl c) (by rw [hka])
      have hstep := stuck_hstep c hnd hres st.1 st.2 hI1' hnr
      have hcur : headName st.2 ∈ names st.2 := by
        cases hrem : st.2 with
        | nil => exact absurd hrem hne
        | cons r rs => simp [headName, names]
      have hlen2 : (names st.2).length + 1 ≤ (List.length c + 1) + 0 := by
        have := hsub'.length_le
        simp only [names, List.length_map]
        omega
      have hcyc2 := walkCycle_sound c st.1 (names st.2) hstep
        (List.length c + 1) [] (headName st.2) List.nodup_nil
        (fun x hx => absurd hx (List.not_mem_nil x)) hcur
        (List.chain'_singleton _) hlen2
      refine ⟨_, ?_, hcyc2⟩
      unfold Build
      rw [if_pos hval]
      simp only [hfu, hdfs, hka]

/-- Counterexample to C3 as stated: a collection whose graph has the
self-loop cycle on a, but whose component b declares the unresolvable
dependency c; Build reports the dependency-not-found error of step 2, not
the circular-dependency error. -/
theorem build_reports_cycle_cex :
    IsCyclePath [⟨"a", ["a"], ""⟩, ⟨"b", ["c"], ""⟩] ["a", "a"] ∧
    Build [⟨"a", ["a"], ""⟩, ⟨"b", ["c"], ""⟩] [] [] =
      Except.error (BuildError.dependencyNotFound "b" "c") ∧
    isCircularErr (Build [⟨"a", ["a"], ""⟩, ⟨"b", ["c"], ""⟩] [] []) =
      false := by
  refine ⟨⟨by decide, by decide, ?_⟩, by decide, by decide⟩
  exact List.chain'_cons.mpr ⟨by decide, List.chain'_singleton _⟩

/-- A concrete instance of the amended C3: the two-cycle between a and b
is reported with a genuine cycle path. -/
theorem build_reports_cycle_witness :
    ∃ p, Build [⟨"a", ["b"], ""⟩, ⟨"b", ["a"], ""⟩] [] [] =
        Except.error (BuildError.circularDependency p) ∧
      IsCyclePath [⟨"a", ["b"], ""⟩, ⟨"b", ["a"], ""⟩] p :=
  build_reports_cycle _ [] [] (by decide) (by decide)
    ⟨["a", "b", "a"], by decide, by decide,
      List.chain'_cons.mpr ⟨by decide,
        List.chain'_cons.mpr ⟨by decide, List.chain'_singleton _⟩⟩⟩

/- ## Theorems: sorting and de-duplication of the missing set -/

/-- Ordered insertion permutes consing. -/
theorem orderedInsert_perm (a : String) :
    ∀ l : List String, (orderedInsert a l).Perm (a :: l) := by
  intro l
  induction l with
  | nil => exact List.Perm.refl _
  | cons b t ih =>
    unfold orderedInsert
    by_cases hab : strLe a b = true
    · rw [if_pos hab]
    · rw [if_neg hab]
      exact (ih.cons b).trans (List.Perm.swap a b t)

/-- Insertion sort permutes its input. -/
theorem insertionSortStr_perm :
    ∀ l : List String, (insertionSortStr l).Perm l := by
  intro l
  induction l with
  | nil => exact List.Perm.refl _
  | cons a t ih =>
    exact (orderedInsert_perm a (insertionSortStr t)).trans (ih.cons a)

/-- Ordered insertion of a fresh element preserves strict sortedness. -/
theorem orderedInsert_sorted (a : String) :
    ∀ l : List String, ¬ a ∈ l → List.Pairwise (· < ·) l →
      List.Pairwise (· < ·) (orderedInsert a l) := by
  intro l
  induction l with
  | nil => intro _ _; exact List.pairwise_singleton _ a
  | cons b t ih =>
    intro hnin hs
    obtain ⟨hb, ht⟩ := List.pairwise_cons.mp hs
    unfold orderedInsert
    by_cases hab : strLe a b = true
    · rw [if_pos hab]
      have hanb : a ≠ b := fun heq => hnin (heq ▸ List.mem_cons_self a t)
      have halb : a < b := lt_of_le_of_ne ((strLe_iff a b).mp hab) hanb
      rw [List.pairwise_cons]
      refine ⟨?_, hs⟩
      intro z hz
      rcases List.mem_cons.mp hz with rfl | hzt
      · exact halb
      · exact lt_trans halb (hb z hzt)
    · rw [if_neg hab]
      have hba : b < a := by
        have := (not_congr (strLe_iff a b)).mp hab
        exact lt_of_not_le this
      rw [List.pairwise_cons]
      refine ⟨?_, ih (fun hat => hnin (List.mem_cons_of_mem b hat)) ht⟩
      intro z hz
      have hz2 : z ∈ a :: t := (orderedInsert_perm a t).mem_iff.mp hz
      rcases List.mem_cons.mp hz2 with rfl | hzt
      · exact hba
      · exact hb z hzt

/-- Insertion sort of a duplicate-free list is strictly sorted. -/
theorem insertionSortStr_sorted :
    ∀ l : List String, l.Nodup → List.Pairwise (· < ·) (insertionSortStr l) := by
  intro l
  induction l with
  | nil => intro _; exact List.Pairwise.nil
  | cons a t ih =>
    intro hnd
    obtain ⟨ha, ht⟩ := List.pairwise_cons.mp hnd
    have hna : ¬ a ∈ insertionSortStr t := fun hmem =>
      (ha a ((insertionSortStr_perm t).mem_iff.mp hmem)) rfl
    exact orderedInsert_sorted a (insertionSortStr t) hna (ih ht)

/-- sortDedup is strictly ascending. -/
theorem sortDedup_sorted (l : List String) :
    List.Pairwise (· < ·) (sortDedup l) :=
  insertionSortStr_sorted l.dedup (List.nodup_dedup l)

/-- sortDedup keeps exactly the members of its input. -/
theorem sortDedup_mem (l : List String) (i : String) :
    i ∈ sortDedup l ↔ i ∈ l :=
  ((insertionSortStr_perm l.dedup).mem_iff).trans List.mem_dedup

/-- sortDedup is duplicate-free. -/
theorem sortDedup_nodup (l : List String) : (sortDedup l).Nodup :=
  (sortDedup_sorted l).imp ne_of_lt

/- ## Theorems: aggregation of missing integrations (C4) -/

/-- On a valid, resolvable, acyclic collection the structural stages of
the pipeline succeed and yield a complete deterministic order. -/
theorem kahn_pipeline_ok (c : Collection) (hnd : (names c).Nodup)
    (hres : ∀ comp ∈ c, ∀ d ∈ comp.deps, (lookup c d).isSome = true)
    (hacy : Acyclic c) :
    ∃ order, dfsAll c = Except.ok () ∧
      kahnAux c (List.length c) [] c = Except.ok order ∧
      (∀ comp : Component, comp ∈ c → comp.name ∈ order) ∧
      order.Nodup ∧ (∀ n ∈ order, n ∈ names c) := by
  cases hdfs : dfsAll c with
  | error p => exact absurd ⟨p, dfsAll_sound c p hdfs⟩ hacy
  | ok u =>
    cases u
    cases hka : kahnAux c (List.length c) [] c with
    | error st =>
      exfalso
      obtain ⟨hne, hI1', hsub', hnr⟩ := kahnAux_stuck_spec c hnd
        (List.length c) [] c st.1 st.2 (le_refl _)
        (fun comp => by simp) (List.Sublist.refl c) (by rw [hka])
      have hstep := stuck_hstep c hnd hres st.1 st.2 hI1' hnr
      have hcur : headName st.2 ∈ names st.2 := by
        cases hrem : st.2 with
        | nil => exact absurd hrem hne
        | cons r rs => simp [headName, names]
      have hlen2 : (names st.2).length + 1 ≤ (List.length c + 1) + 0 := by
        have := hsub'.length_le
        simp only [names, List.length_map]
        omega
      have hcyc := walkCycle_sound c st.1 (names st.2) hstep
        (List.length c + 1) [] (headName st.2) List.nodup_nil
        (fun x hx => absurd hx (List.not_mem_nil x)) hcur
        (List.chain'_singleton _) hlen2
      exact hacy ⟨_, hcyc⟩
    | ok order =>
      obtain ⟨hcomplete, hordnd, hordnames, _, _⟩ :=
        kahnAux_ok_spec c hnd (List.length c) [] c order (le_refl _)
        (fun comp => by simp) (List.Sublist.refl c) List.nodup_nil
        (fun n hn => absurd hn (List.not_mem_nil n))
        (fun k hk => absurd hk (Nat.not_lt_zero k))
        (fun k hk => absurd hk (Nat.not_lt_zero k)) hka
      exact ⟨order, rfl, rfl, hcomplete, hordnd, hordnames⟩

/-- C4: a requirement evaluating false does not abort Build; the
traversal covers every component, and Build fails exactly once with the
missing-integrations error whose payload is the ascending, duplicate-free
list holding precisely the unconfigured identifiers of all unsatisfied
requirements, so distinct unconfigured integrations of distinct components
appear together. -/
theorem build_aggregates_missing (c : Collection) (known conf : List String)
    (hval : validCollection c = true)
    (hres : ∀ comp ∈ c, ∀ d ∈ comp.deps, (lookup c d).isSome = true)
    (hacy : Acyclic c)
    (hpk : ∀ comp ∈ c, ∃ e, parseReq comp.requiresExpr = some e ∧
      (∀ i ∈ e.idents, known.contains i = true))
    (x : Component) (hx : x ∈ c) (ex : BExpr)
    (hpx : parseReq x.requiresExpr = some ex)
    (hfalse : ex.eval conf = false)
    (ix : String) (hix : ix ∈ ex.idents) (hcx : conf.contains ix = false) :
    ∃ L, Build c known conf =
        Except.error (BuildError.missingIntegrations L) ∧
      List.Pairwise (· < ·) L ∧ L.Nodup ∧
      (∀ i : String, i ∈ L ↔ ∃ comp ∈ c, ∃ e,
        parseReq comp.requiresExpr = some e ∧ e.eval conf = false ∧
        i ∈ e.idents ∧ conf.contains i = false) := by
  have hnd : (names c).Nodup := by
    rw [validCollection, Bool.and_eq_true] at hval
    exact (nodupBy_iff (names c)).mp hval.2
  have hfu : findUnresolved c = none := (findUnresolved_none_iff c).mpr hres
  obtain ⟨order, hdfs, hka, hcomplete, hordnd, hordnames⟩ :=
    kahn_pipeline_ok c hnd hres hacy
  have horder : ∀ n ∈ order, ∃ comp, lookup c n = some comp ∧
      ∃ e, parseReq comp.requiresExpr = some e ∧
        (∀ i ∈ e.idents, known.contains i = true) := by
    intro n hn
    have hn2 : n ∈ List.map Component.name c := hordnames n hn
    obtain ⟨comp, hcm, rfl⟩ := List.mem_map.mp hn2
    obtain ⟨e, hpe, hke⟩ := hpk comp hcm
    exact ⟨comp, lookup_of_mem c hnd comp hcm, e, hpe, hke⟩
  obtain ⟨flags, miss, hep, hmap, hflags, hmiss⟩ :=
    evalPhase_ok_spec c known conf order horder
  have hmem_char : ∀ i : String, i ∈ miss ↔ ∃ comp ∈ c, ∃ e,
      parseReq comp.requiresExpr = some e ∧ e.eval conf = false ∧
      i ∈ e.idents ∧ conf.contains i = false := by
    intro i
    rw [hmiss i]
    constructor
    · rintro ⟨n, _, comp, e, hlk, hpe, hev, him, hic⟩
      obtain ⟨hcm, _⟩ := lookup_mem_name c n comp hlk
      exact ⟨comp, hcm, e, hpe, hev, him, hic⟩
    · rintro ⟨comp, hcm, e, hpe, hev, him, hic⟩
      exact ⟨comp.name, hcomplete comp hcm, comp,
        e, lookup_of_mem c hnd comp hcm, hpe, hev, him, hic⟩
  have hixm : ix ∈ miss := (hmem_char ix).mpr ⟨x, hx, ex, hpx, hfalse, hix, hcx⟩
  have hmne : ¬ miss = [] := fun hnil => by
    rw [hnil] at hixm
    exact absurd hixm (List.not_mem_nil ix)
  refine ⟨sortDedup miss, ?_, sortDedup_sorted miss, sortDedup_nodup miss, ?_⟩
  · unfold Build
    rw [if_pos hval]
    simp only [hfu, hdfs, hka, hep]
    rw [if_neg hmne]
  · intro i
    rw [sortDedup_mem miss i]
    exact hmem_char i

/-- A concrete instance of C4, the aggregation scenario of the spec: the
components x and y respectively require the unconfigured integrations a
and b, and the single error lists both. -/
theorem build_aggregates_missing_witness :
    ∃ L, Build [⟨"x", [], "a"⟩, ⟨"y", [], "b"⟩] ["a", "b"] [] =
        Except.error (BuildError.missingIntegrations L) ∧
      List.Pairwise (· < ·) L ∧ L.Nodup ∧
      (∀ i : String, i ∈ L ↔
        ∃ comp ∈ ([⟨"x", [], "a"⟩, ⟨"y", [], "b"⟩] : Collection), ∃ e,
        parseReq comp.requiresExpr = some e ∧ e.eval [] = false ∧
        i ∈ e.idents ∧ List.contains [] i = false) := by
  have hpk : ∀ comp ∈ ([⟨"x", [], "a"⟩, ⟨"y", [], "b"⟩] : Collection),
      ∃ e, parseReq comp.requiresExpr = some e ∧
        (∀ i ∈ e.idents, (["a", "b"] : List String).contains i = true) := by
    intro comp hcm
    rcases List.mem_cons.mp hcm with rfl | hcm2
    · exact ⟨BExpr.var "a", by decide, by decide⟩
    · rcases List.mem_cons.mp hcm2 with rfl | hcm3
      · exact ⟨BExpr.var "b", by decide, by decide⟩
      · exact absurd hcm3 (List.not_mem_nil comp)
  exact build_aggregates_missing _ _ _ (by decide) (by decide)
    (acyclic_of_no_deps _ (by decide)) hpk ⟨"x", [], "a"⟩ (by decide)
    (BExpr.var "a") (by decide) (by decide) "a" (by decide) (by decide)

/-- Counterexample to C4 as stated: quantified over every Collection the
aggregation claim fails twice over. A cyclic collection whose requirement
evaluates false fails with the circular-dependency error of the earlier
pipeline stage, not with missing integrations; and a component whose
negated requirement evaluates false while naming only configured
integrations does not make Build fail at all: the build succeeds with a
false satisfaction flag. -/
theorem build_aggregates_missing_cex :
    parseReq "git" = some (BExpr.var "git") ∧
    (BExpr.var "git").eval [] = false ∧
    Build [⟨"a", ["a"], "git"⟩] ["git"] [] =
      Except.error (BuildError.circularDependency ["a", "a"]) ∧
    parseReq "!git" = some (BExpr.not (BExpr.var "git")) ∧
    (BExpr.not (BExpr.var "git")).eval ["git"] = false ∧
    Build [⟨"a", [], "!git"⟩] ["git"] ["git"] =
      Except.ok [("a", false)] := by
  refine ⟨by decide, by decide, by decide, by decide, by decide, by decide⟩
